import Mathlib

/-!
Verification of the CryptoDrawAPI settlement engine.

This file gives a shallow embedding in Lean 4 of the core algorithms of the
repository — the Merkle commitment (`src/utils/MerkleTree.ts`), the number
codec (`src/utils/NumberPacking.ts`), the winning-number derivation and tier
evaluation (`src/utils/RandomnessDerivation.ts`), and the prize distribution
(`src/services/ConsolidatorService.ts`) — and proves or refutes the spec's
claims about them.

Modelling conventions:
* keccak256 is kept abstract: the Merkle functions take `keccak : String → String`
  (hex string to hex string) and the leaf hasher takes `keccak : List Nat → List Nat`
  (byte sequence to byte sequence) as an explicit parameter.  Every theorem
  quantifies over the hash function (or instantiates it in a closed
  counterexample), so the results hold in particular for the real keccak256.
* JavaScript strings are Lean `String`s; the JS `<=` comparison on strings is
  embedded as `strLe` (lexicographic on the code-unit sequence).
* JS numbers holding byte/packed values are `Nat`; JS `NaN` arising from
  out-of-bounds array reads is modelled by `Option Nat` (`none` = NaN).
* JS floating point currency arithmetic is modelled over `ℚ`, with
  `toFixed(2)` modelled as round-half-up to two decimals (`round2`); at the
  magnitudes used in the counterexamples the double computation agrees.
* A thrown exception is modelled as `none` / `Except.error`.
-/

namespace MerkleTree

/-- JS lexicographic string comparison `a <= b`, char by char. -/
def strLeAux : List Char → List Char → Bool
  | [], _ => true
  | _ :: _, [] => false
  | c :: cs, d :: ds => if c < d then true else if d < c then false else strLeAux cs ds

/-- Embedding of the JS string comparison `left <= right`. -/
def strLe (a b : String) : Bool := strLeAux a.data b.data

/-- ASCII lower-casing of one character, as JS `toLowerCase` acts on the
ASCII hex/`0x` characters occurring here. -/
def charLower (c : Char) : Char :=
  if 'A' ≤ c ∧ c ≤ 'Z' then Char.ofNat (c.toNat + 32) else c

/-- Embedding of JS `s.toLowerCase()` (ASCII strings). -/
def jsToLower (s : String) : String := String.mk (s.data.map charLower)

/-- `ethers.concat` on two `0x`-prefixed hex strings: strip both prefixes and
re-prefix the concatenation. -/
def ethConcat (a b : String) : String :=
  String.mk ('0' :: 'x' :: (a.data.drop 2 ++ b.data.drop 2))

/-- `MerkleTree.hashPair` (src/utils/MerkleTree.ts:161-168): order the two
hashes by their lower-cased string comparison, concatenate, keccak256. -/
def hashPair (keccak : String → String) (left right : String) : String :=
  if strLe (jsToLower left) (jsToLower right) then keccak (ethConcat left right)
  else keccak (ethConcat right left)

/-- One pairing pass of `buildTree`'s inner `for` loop
(src/utils/MerkleTree.ts:79-84).  When the level has odd length the last
iteration reads `currentLevel[i+1]` past the end of the array (`undefined`),
and `hashPair` then throws a `TypeError`; this crash is modelled by `none`. -/
def pairUp (keccak : String → String) : List String → Option (List String)
  | [] => some []
  | [_] => none
  | a :: b :: rest => (pairUp keccak rest).map (fun t => hashPair keccak a b :: t)

/-- The `while (currentLevel.length > 1)` loop of `buildTree`
(src/utils/MerkleTree.ts:76-88), returning the list of levels above level 0.
The loop is embedded with a fuel argument for structural recursion; each pass
halves the level length, so any fuel at least the current length is enough
(`buildLevelsGo_fuel` below shows the result is fuel-independent from there:
the `0` case is only reached with a level of length `0`, where the loop would
stop anyway). -/
def buildLevelsGo (keccak : String → String) : Nat → List String →
    Option (List (List String))
  | 0, _ => some []
  | fuel + 1, current =>
    if current.length ≤ 1 then some []
    else
      match pairUp keccak current with
      | none => none
      | some next => (buildLevelsGo keccak fuel next).map (fun rest => next :: rest)

/-- The level-building loop, run with sufficient fuel. -/
def buildLevels (keccak : String → String) (current : List String) :
    Option (List (List String)) :=
  buildLevelsGo keccak current.length current

/-- Result of `MerkleTree.buildTree`: root, levels, and the proofs object. -/
structure BuildResult where
  root : String
  tree : List (List String)
  proofs : List (String × List String)
  deriving Repr, DecidableEq

/-- Lookup in the JS object `proofs[leaf]`. -/
def lookupProof : List (String × List String) → String → Option (List String)
  | [], _ => none
  | (k, v) :: rest, x => if k == x then some v else lookupProof rest x

/-- JS object property assignment `proofs[leaf] = value`: replace the value if
the key is present, otherwise append the new key. -/
def setKey : List (String × List String) → String → List String → List (String × List String)
  | [], k, v => [(k, v)]
  | (k0, v0) :: rest, k, v =>
      if k0 == k then (k0, v) :: rest else (k0, v0) :: setKey rest k v

/-- Sibling index `currentIndex % 2 === 0 ? currentIndex + 1 : currentIndex - 1`
(src/utils/MerkleTree.ts:124). -/
def siblingIndexOf (i : Nat) : Nat := if i % 2 == 0 then i + 1 else i - 1

/-- The level walk of `generateProofForIndex` (src/utils/MerkleTree.ts:117-134):
visit every level except the last, pushing the sibling when it is in range. -/
def proofWalk : List (List String) → Nat → List String
  | [], _ => []
  | [_], _ => []
  | lvl :: next :: rest, idx =>
      (if siblingIndexOf idx < lvl.length then [lvl.getD (siblingIndexOf idx) ""] else [])
        ++ proofWalk (next :: rest) (idx / 2)

/-- `MerkleTree.generateProofForIndex` (src/utils/MerkleTree.ts:117-134). -/
def generateProofForIndex (tree : List (List String)) (leafIndex : Nat) : List String :=
  proofWalk tree leafIndex

/-- `MerkleTree.generateProofs` (src/utils/MerkleTree.ts:103-112): for each
original leaf index `i` in ascending order, assign
`proofs[originalLeaves[i]] = generateProofForIndex(tree, i)`. -/
def generateProofs (tree : List (List String)) (originalLeaves : List String) :
    List (String × List String) :=
  (List.range originalLeaves.length).foldl
    (fun m i => setKey m (originalLeaves.getD i "") (generateProofForIndex tree i)) []

/-- Leaf padding at the start of `buildTree` (src/utils/MerkleTree.ts:67-70):
duplicate the last leaf when the count is odd. -/
def padLeaves (leaves : List String) : List String :=
  if leaves.length % 2 == 1 then leaves ++ [leaves.getLastD ""] else leaves

/-- `MerkleTree.buildTree` (src/utils/MerkleTree.ts:61-98).  `none` models a
thrown exception: the explicit empty-leaves throw, or the `TypeError` raised
when an inner level has odd length (see `pairUp`). -/
def buildTree (keccak : String → String) (leaves : List String) : Option BuildResult :=
  match leaves with
  | [] => none
  | _ :: _ =>
    match buildLevels keccak (padLeaves leaves) with
    | none => none
    | some lvls =>
      some { root := ((padLeaves leaves :: lvls).getLastD []).getD 0 ""
             tree := padLeaves leaves :: lvls
             proofs := generateProofs (padLeaves leaves :: lvls) leaves }

/-- One step of the verification fold (src/utils/MerkleTree.ts:146-153):
order the running hash and the proof element by the raw string comparison,
then combine with `hashPair`. -/
def verifyStep (keccak : String → String) (cur p : String) : String :=
  if strLe cur p then hashPair keccak cur p else hashPair keccak p cur

/-- `MerkleTree.verifyProof` (src/utils/MerkleTree.ts:139-156). -/
def verifyProof (keccak : String → String) (leaf : String) (proof : List String)
    (root : String) : Bool :=
  match proof with
  | [] => leaf == root
  | _ :: _ => (proof.foldl (verifyStep keccak) leaf) == root

/-- A string that is fixed by lower-casing — true of every `0x`-prefixed
lowercase hex digest as produced by `ethers.keccak256`. -/
def lowerFixed (s : String) : Prop := jsToLower s = s

instance lowerFixedDecidable (s : String) : Decidable (lowerFixed s) :=
  inferInstanceAs (Decidable (jsToLower s = s))

/-- The invariant that links a level list produced by the `buildTree` loop:
each level pairs up into the next, and the final level is a single node. -/
inductive Chained (keccak : String → String) : List (List String) → Prop
  | single (l : List String) : l.length = 1 → Chained keccak [l]
  | step (l next : List String) (rest : List (List String)) :
      pairUp keccak l = some next → Chained keccak (next :: rest) →
      Chained keccak (l :: next :: rest)

/-- The last index `j < n` at which `leaves[j]` equals `x`
(`none` if there is none below `n`). -/
def lastOccurrence (leaves : List String) : Nat → String → Option Nat
  | 0, _ => none
  | n + 1, x => if leaves.getD n "" == x then some n else lastOccurrence leaves n x

/-- Big-endian byte encoding of `v` in exactly `w` bytes (the value is taken
modulo `256 ^ w`), as Solidity `abi.encodePacked` lays out fixed-width
unsigned integers. -/
def beBytes : Nat → Nat → List Nat
  | 0, _ => []
  | w + 1, v => beBytes w (v / 256) ++ [v % 256]

/-- The unsigned value a big-endian byte sequence denotes. -/
def beVal (bs : List Nat) : Nat := bs.foldl (fun a b => a * 256 + b) 0

/-- The ticket fields hashed into a leaf (`TicketLeafData`,
src/utils/MerkleTree.ts:7-14); the `0x`-hex ticketId, owner address and
packed numbers are modelled by their numeric values. -/
structure TicketLeafData where
  ticketId : Nat
  owner : Nat
  game : Nat
  numbersPacked : Nat
  roundsBought : Nat
  firstDrawId : Nat
  deriving Repr, DecidableEq

/-- The byte layout produced by `ethers.solidityPackedKeccak256` for the type
list `(uint256, address, uint8, uint256, uint256, uint256)`
(src/utils/MerkleTree.ts:44-54): Solidity `abi.encodePacked`, in which an
`address` contributes its 20 raw bytes and a `uint8` a single byte. -/
def encodePackedLeaf (t : TicketLeafData) : List Nat :=
  beBytes 32 t.ticketId ++ beBytes 20 t.owner ++ beBytes 1 t.game
    ++ beBytes 32 t.numbersPacked ++ beBytes 32 t.roundsBought
    ++ beBytes 32 t.firstDrawId

/-- `MerkleTree.generateLeafHash` (src/utils/MerkleTree.ts:42-56): keccak256
over the `abi.encodePacked` layout of the six fields. -/
def generateLeafHash (keccak : List Nat → List Nat) (t : TicketLeafData) : List Nat :=
  keccak (encodePackedLeaf t)

/-- Modelled from the spec's words (§4.2, claim C3): every field encoded as a
32-byte big-endian word, the 20-byte address zero-padded on the high side
into its own 32-byte slot — i.e. six 32-byte words, 192 bytes. -/
def specLeafPreimage (t : TicketLeafData) : List Nat :=
  beBytes 32 t.ticketId ++ beBytes 32 t.owner ++ beBytes 32 t.game
    ++ beBytes 32 t.numbersPacked ++ beBytes 32 t.roundsBought
    ++ beBytes 32 t.firstDrawId

/-- The preimage of the placeholder-hash variant of `generateLeafHash`
(the `MerkleTree` copy embedded in the NumberPacking source file, lines
197-209): hex-string concatenation with ticketId/game/packed/rounds/drawId
padded to 64 hex chars (32 bytes) and the owner contributing its raw 20
bytes — 180 bytes, also not the spec's layout. -/
def placeholderLeafPreimage (t : TicketLeafData) : List Nat :=
  beBytes 32 t.ticketId ++ beBytes 20 t.owner ++ beBytes 32 t.game
    ++ beBytes 32 t.numbersPacked ++ beBytes 32 t.roundsBought
    ++ beBytes 32 t.firstDrawId

end MerkleTree

namespace NumberPacking

/-- `NumberPacking.validateLotofasilNumbers` (src/utils/NumberPacking.ts:75-91,
source spelling kept): exactly 15 integers, each in `[1,25]`, no duplicates. -/
def validateLotofasilNumbers (numbers : List Nat) : Bool :=
  numbers.length == 15
    && numbers.all (fun n => 1 ≤ n && n ≤ 25)
    && decide numbers.Nodup

/-- `NumberPacking.validateSuperseteNumbers` (src/utils/NumberPacking.ts:98-109):
exactly 7 digits, each in `[0,9]`. -/
def validateSuperseteNumbers (columns : List Nat) : Bool :=
  columns.length == 7 && columns.all (fun n => n ≤ 9)

/-- `NumberPacking.packLotofacil` (src/utils/NumberPacking.ts:13-24): validate,
then OR together the bits `1 << (n - 1)`.  A thrown validation error is
`Except.error`. -/
def packLotofacil (numbers : List Nat) : Except String Nat :=
  if validateLotofasilNumbers numbers then
    Except.ok (numbers.foldl (fun packed n => packed ||| (1 <<< (n - 1))) 0)
  else Except.error "Invalid Lotofacil numbers"

/-- `NumberPacking.unpackLotofacil` (src/utils/NumberPacking.ts:29-37): collect
`i + 1` for every set bit `i < 25`, then sort numerically.  The JS
`sort((a, b) => a - b)` is modelled by `List.insertionSort (· ≤ ·)`, which
produces the same (sorted) result. -/
def unpackLotofacil (packed : Nat) : List Nat :=
  List.insertionSort (· ≤ ·)
    (((List.range 25).filter (fun i => packed &&& (1 <<< i) != 0)).map (fun i => i + 1))

/-- The packing loop of `packSupersete` (src/utils/NumberPacking.ts:48-53):
`packed |= columns[i] << (i * 4)` for `i` ascending. -/
def packSuperseteGo : List Nat → Nat → Nat
  | [], _ => 0
  | c :: cs, i => (c <<< (i * 4)) ||| packSuperseteGo cs (i + 1)

/-- `NumberPacking.packSupersete` (src/utils/NumberPacking.ts:43-54). -/
def packSupersete (columns : List Nat) : Except String Nat :=
  if validateSuperseteNumbers columns then
    Except.ok (packSuperseteGo columns 0)
  else Except.error "Invalid SuperSete numbers"

/-- `NumberPacking.unpackSupersete` (src/utils/NumberPacking.ts:59-67): extract
`(packed >> (i * 4)) & 0xF` for the 7 columns. -/
def unpackSupersete (packed : Nat) : List Nat :=
  (List.range 7).map (fun i => (packed >>> (i * 4)) &&& 15)

/-- `NumberPacking.packNumbers` (src/utils/NumberPacking.ts:128-137).  The
game tag is a plain number at runtime (`GameType.LOTOFACIL = 0`,
`GameType.SUPERSETE = 1`); any other tag throws `Unsupported game type`. -/
def packNumbers (numbers : List Nat) (game : Nat) : Except String Nat :=
  match game with
  | 0 => packLotofacil numbers
  | 1 => packSupersete numbers
  | _ => Except.error "Unsupported game type"

/-- `NumberPacking.unpackNumbers` (src/utils/NumberPacking.ts:142-151). -/
def unpackNumbers (packed : Nat) (game : Nat) : Except String (List Nat) :=
  match game with
  | 0 => Except.ok (unpackLotofacil packed)
  | 1 => Except.ok (unpackSupersete packed)
  | _ => Except.error "Unsupported game type"

end NumberPacking

namespace RandomnessDerivation

/-- The working pool `[1, 2, ..., 25]` of `deriveLotofacilWinning`
(src/utils/RandomnessDerivation.ts:22). -/
def pool25 : List Nat := (List.range 25).map (· + 1)

/-- The byte-consuming selection loop of `deriveLotofacilWinning`
(src/utils/RandomnessDerivation.ts:24-37): while fewer than 15 numbers are
chosen and bytes remain, pick index `byte % available.length`, splice that
element out of the pool and append it.  (`byteIndex < bytes.length` in the
loop guard means the modulus in `bytes[byteIndex % bytes.length]` never
wraps: the loop walks the byte list once.)  Returns the chosen numbers and
the remaining pool. -/
def drawLoop : List Nat → List Nat → List Nat → (List Nat × List Nat)
  | [], numbers, available => (numbers, available)
  | b :: bs, numbers, available =>
    if numbers.length < 15 then
      if available.length = 0 then (numbers, available)
      else drawLoop bs (numbers ++ [available.getD (b % available.length) 0])
        (available.eraseIdx (b % available.length))
    else (numbers, available)

/-- The deterministic fallback loop of `deriveLotofacilWinning`
(src/utils/RandomnessDerivation.ts:40-44): while fewer than 15 numbers are
chosen and the pool is non-empty, splice out index
`(numbers.length * 7) % available.length`.  Embedded with a fuel argument for
structural recursion; the pool shrinks by one per pass, so fuel
`available.length` is exactly enough (at fuel 0 the pool is empty and the
loop would stop anyway). -/
def fillLoopGo : Nat → List Nat → List Nat → List Nat
  | 0, numbers, _ => numbers
  | fuel + 1, numbers, available =>
    if numbers.length < 15 ∧ 0 < available.length then
      fillLoopGo fuel
        (numbers ++ [available.getD ((numbers.length * 7) % available.length) 0])
        (available.eraseIdx ((numbers.length * 7) % available.length))
    else numbers

/-- The fallback loop, run with sufficient fuel. -/
def fillLoop (numbers available : List Nat) : List Nat :=
  fillLoopGo available.length numbers available

/-- `RandomnessDerivation.deriveLotofacilWinning`
(src/utils/RandomnessDerivation.ts:13-47), taking the byte sequence that
`hexToBytes` produces from the randomness hex string (quantifying over all
byte lists covers every hex input, including the empty one, which yields
`[]`).  The final JS `sort((a, b) => a - b)` is modelled by
`List.insertionSort (· ≤ ·)`, which produces the same sorted result. -/
def deriveLotofacilWinning (bytes : List Nat) : List Nat :=
  List.insertionSort (· ≤ ·)
    (fillLoop (drawLoop bytes [] pool25).1 (drawLoop bytes [] pool25).2)

/-- `RandomnessDerivation.deriveSuperseteWinning`
(src/utils/RandomnessDerivation.ts:53-73): digit `i` is
`bytes[i % bytes.length] % 10`.  On an empty byte list `i % 0` is `NaN` in
JS, the array read yields `undefined` and `undefined % 10` is `NaN`;
the NaN digit is modelled as `none`. -/
def deriveSuperseteWinning (bytes : List Nat) : List (Option Nat) :=
  (List.range 7).map (fun i =>
    if bytes.isEmpty then none
    else some ((bytes.getD (i % bytes.length) 0) % 10))

/-- `RandomnessDerivation.deriveWinningNumbers`
(src/utils/RandomnessDerivation.ts:92-101).  The Lotofácil digits are wrapped
in `some` to share the result type with the SuperSete variant (whose digits
can be NaN). -/
def deriveWinningNumbers (bytes : List Nat) (game : Nat) :
    Except String (List (Option Nat)) :=
  match game with
  | 0 => Except.ok ((deriveLotofacilWinning bytes).map some)
  | 1 => Except.ok (deriveSuperseteWinning bytes)
  | _ => Except.error "Unsupported game type"

/-- The Lotofácil tier ladder (src/utils/RandomnessDerivation.ts:168-174,
duplicated in src/services/ConsolidatorService.ts:198-204). -/
def lotofacilTier (m : Nat) : Option Nat :=
  if m = 15 then some 1 else if m = 14 then some 2 else if m = 13 then some 3
  else if m = 12 then some 4 else if m = 11 then some 5 else none

/-- The SuperSete tier ladder (src/utils/RandomnessDerivation.ts:200-206,
duplicated in src/services/ConsolidatorService.ts:223-229). -/
def superseteTier (m : Nat) : Option Nat :=
  if m = 7 then some 1 else if m = 6 then some 2 else if m = 5 then some 3
  else if m = 4 then some 4 else if m = 3 then some 5 else none

/-- The `{isWinner, matchCount, tier?}` result shape of the winning checks. -/
structure WinCheck where
  isWinner : Bool
  matchCount : Nat
  tier : Option Nat
  deriving Repr, DecidableEq

/-- `RandomnessDerivation.checkLotofacilWinning`
(src/utils/RandomnessDerivation.ts:160-181): `matchCount` is the number of
ticket numbers contained in the winning list. -/
def checkLotofacilWinning (t w : List Nat) : WinCheck :=
  { isWinner := (lotofacilTier ((t.filter (fun n => w.contains n)).length)).isSome
    matchCount := (t.filter (fun n => w.contains n)).length
    tier := lotofacilTier ((t.filter (fun n => w.contains n)).length) }

/-- `RandomnessDerivation.checkSuperseteWinning`
(src/utils/RandomnessDerivation.ts:186-213): the loop
`for i in 0 .. min(len t, len w) - 1: if t[i] === w[i] then matches++`
counts matching digits at EVERY position (not only a consecutive suffix). -/
def checkSuperseteWinning (t w : List Nat) : WinCheck :=
  { isWinner := (superseteTier ((List.range (min t.length w.length)).countP
      (fun i => t.getD i 0 == w.getD i 0))).isSome
    matchCount := (List.range (min t.length w.length)).countP
      (fun i => t.getD i 0 == w.getD i 0)
    tier := superseteTier ((List.range (min t.length w.length)).countP
      (fun i => t.getD i 0 == w.getD i 0)) }

/-- `RandomnessDerivation.checkWinning`
(src/utils/RandomnessDerivation.ts:142-155): note the `default` branch
returns `{isWinner: false, matchCount: 0}` instead of throwing. -/
def checkWinning (t w : List Nat) (game : Nat) : WinCheck :=
  match game with
  | 0 => checkLotofacilWinning t w
  | 1 => checkSuperseteWinning t w
  | _ => { isWinner := false, matchCount := 0, tier := none }

end RandomnessDerivation

namespace ConsolidatorService

open RandomnessDerivation

/-- One step of the right-to-left scan of `checkTicketWinning`'s SuperSete
branch (src/services/ConsolidatorService.ts:215-221): from index `i`
downward, count while `t[i] === w[i]`, stop at the first mismatch
(an out-of-range `w[i]` is `undefined` and never equal). -/
def consecFromIdx (t w : List Nat) : Nat → Nat
  | 0 => if t[0]? == w[0]? then 1 else 0
  | i + 1 => if t[i + 1]? == w[i + 1]? then consecFromIdx t w i + 1 else 0

/-- `ConsolidatorService.checkTicketWinning`
(src/services/ConsolidatorService.ts:189-239).  The Lotofácil branch repeats
the filter-count of `checkLotofacilWinning`; the SuperSete branch counts
consecutive matches from the right; any other tag yields the non-winning
default. -/
def checkTicketWinning (t w : List Nat) (game : Nat) : WinCheck :=
  match game with
  | 0 =>
    { isWinner := (lotofacilTier ((t.filter (fun n => w.contains n)).length)).isSome
      matchCount := (t.filter (fun n => w.contains n)).length
      tier := lotofacilTier ((t.filter (fun n => w.contains n)).length) }
  | 1 =>
    { isWinner := (superseteTier (if t.length = 0 then 0
        else consecFromIdx t w (t.length - 1))).isSome
      matchCount := if t.length = 0 then 0 else consecFromIdx t w (t.length - 1)
      tier := superseteTier (if t.length = 0 then 0
        else consecFromIdx t w (t.length - 1)) }
  | _ => { isWinner := false, matchCount := 0, tier := none }

/-- JS `x.toFixed(2)` on the currency amounts, modelled over `ℚ` as rounding
half-up to two decimals. -/
def round2 (q : ℚ) : ℚ := (round (100 * q) : ℤ) / 100

/-- The Lotofácil distribution percentage table
(src/services/ConsolidatorService.ts:246-252), with the `|| 0` fallback for
tiers outside the table. -/
def lotofacilPercents (tier : Nat) : ℚ :=
  if tier = 1 then 1/2 else if tier = 2 then 1/4 else if tier = 3 then 3/20
  else if tier = 4 then 2/25 else if tier = 5 then 1/50 else 0

/-- The SuperSete distribution percentage table
(src/services/ConsolidatorService.ts:252-258). -/
def supersetePercents (tier : Nat) : ℚ :=
  if tier = 1 then 3/5 else if tier = 2 then 1/5 else if tier = 3 then 3/25
  else if tier = 4 then 3/50 else if tier = 5 then 1/50 else 0

/-- One per-tier entry of `WinnersByTier` after `calculatePrizeDistribution`
filled in the prize fields. -/
structure TierPrize where
  tier : Nat
  count : Nat
  prizePerWinner : ℚ
  totalPrize : ℚ
  deriving Repr, DecidableEq

/-- `ConsolidatorService.calculatePrizeDistribution`
(src/services/ConsolidatorService.ts:244-271): for every tier present in
`winnersByTier`, `totalPrize = pool * pct` and
`prizePerWinner = totalPrize / count` (0 if no winners), both then rendered
with `toFixed(2)` (`round2` here). -/
def calculatePrizeDistribution (game : Nat) (totalPrizePool : ℚ)
    (winnersByTier : List (Nat × Nat)) : List TierPrize :=
  winnersByTier.map (fun p =>
    { tier := p.1
      count := p.2
      prizePerWinner := round2 (if 0 < p.2 then
        (totalPrizePool * (if game = 0 then lotofacilPercents p.1
          else supersetePercents p.1)) / (p.2 : ℚ) else 0)
      totalPrize := round2 (totalPrizePool * (if game = 0 then lotofacilPercents p.1
        else supersetePercents p.1)) })

end ConsolidatorService

/-- Modelled from the spec's words (§4.5, claim C4), for comparison with the
code: scan positions from the last (rightmost) toward the first, counting
consecutive equal digits and stopping at the first mismatch. -/
def suffixMatchCount (t w : List Nat) : Nat :=
  ((t.reverse.zip w.reverse).takeWhile (fun p => p.1 == p.2)).length

namespace MerkleTree

theorem pairUp_length (keccak : String → String) :
    ∀ l next, pairUp keccak l = some next → l.length = 2 * next.length := by
  intro l
  induction l using pairUp.induct keccak with
  | case1 => intro next h; simp [pairUp] at h; subst h; simp
  | case2 a => intro next h; simp [pairUp] at h
  | case3 a b rest ih =>
    intro next h
    simp only [pairUp, Option.map_eq_some'] at h
    obtain ⟨t, ht, rfl⟩ := h
    simp [ih t ht]; omega

theorem buildLevelsGo_fuel (keccak : String → String) :
    ∀ f g current, current.length ≤ f → current.length ≤ g →
      buildLevelsGo keccak f current = buildLevelsGo keccak g current := by
  intro f
  induction f with
  | zero =>
    intro g current hf _
    have : current = [] := List.length_eq_zero.mp (Nat.le_zero.mp hf)
    subst this
    cases g <;> simp [buildLevelsGo]
  | succ f ih =>
    intro g current hf hg
    cases g with
    | zero =>
      have : current = [] := List.length_eq_zero.mp (Nat.le_zero.mp hg)
      subst this
      simp [buildLevelsGo]
    | succ g =>
      simp only [buildLevelsGo]
      by_cases h1 : current.length ≤ 1
      · simp [h1]
      · simp only [h1, if_false]
        cases hp : pairUp keccak current with
        | none => rfl
        | some next =>
          have hlen := pairUp_length keccak current next hp
          have hnf : next.length ≤ f := by omega
          have hng : next.length ≤ g := by omega
          simp [ih g next hnf hng]

theorem strLeAux_total : ∀ a b : List Char, strLeAux a b = true ∨ strLeAux b a = true := by
  intro a
  induction a with
  | nil => intro b; left; simp [strLeAux]
  | cons c cs ih =>
    intro b
    cases b with
    | nil => right; simp [strLeAux]
    | cons d ds =>
      by_cases hcd : c < d
      · left; simp [strLeAux, hcd]
      · by_cases hdc : d < c
        · right; simp [strLeAux, hdc]
        · rcases ih ds with h | h
          · left; simp [strLeAux, hcd, hdc, h]
          · right; simp [strLeAux, hcd, hdc, h]

theorem strLeAux_antisymm : ∀ a b : List Char,
    strLeAux a b = true → strLeAux b a = true → a = b := by
  intro a
  induction a with
  | nil =>
    intro b hab hba
    cases b with
    | nil => rfl
    | cons d ds => simp [strLeAux] at hba
  | cons c cs ih =>
    intro b hab hba
    cases b with
    | nil => simp [strLeAux] at hab
    | cons d ds =>
      by_cases hcd : c < d
      · have : ¬ d < c := by
          intro h; exact absurd (h.trans hcd) (lt_irrefl d)
        simp [strLeAux, hcd, this] at hba
      · by_cases hdc : d < c
        · simp [strLeAux, hcd, hdc] at hab
        · have hce : c = d := le_antisymm (le_of_not_lt hdc) (le_of_not_lt hcd)
          subst hce
          simp only [strLeAux, if_neg hcd, if_neg hdc] at hab hba
          rw [ih ds hab hba]

theorem strLe_total (a b : String) : strLe a b = true ∨ strLe b a = true :=
  strLeAux_total a.data b.data

theorem strLe_antisymm (a b : String) (hab : strLe a b = true) (hba : strLe b a = true) :
    a = b := by
  cases a with
  | mk da =>
    cases b with
    | mk db =>
      have : da = db := strLeAux_antisymm da db hab hba
      rw [this]

/-- On lower-fixed inputs, `hashPair` is symmetric: the internal
sort-before-concatenate makes the result order independent. -/
theorem hashPair_comm (keccak : String → String) (a b : String)
    (ha : lowerFixed a) (hb : lowerFixed b) :
    hashPair keccak a b = hashPair keccak b a := by
  unfold hashPair
  rw [ha, hb]
  by_cases hab : strLe a b = true
  · by_cases hba : strLe b a = true
    · have : a = b := strLe_antisymm a b hab hba
      subst this
      simp
    · simp [hab, hba]
  · rcases strLe_total a b with h | h
    · exact absurd h hab
    · simp [hab, h]

/-- On lower-fixed inputs the extra sorting step of `verifyProof` is
redundant: one verification step is exactly `hashPair`. -/
theorem verifyStep_eq (keccak : String → String) (a b : String)
    (ha : lowerFixed a) (hb : lowerFixed b) :
    verifyStep keccak a b = hashPair keccak a b := by
  unfold verifyStep
  by_cases hab : strLe a b = true
  · simp [hab]
  · simp [hab, hashPair_comm keccak b a hb ha]

theorem verifyProof_eq_foldl (keccak : String → String) (leaf : String)
    (proof : List String) (root : String) :
    verifyProof keccak leaf proof root =
      ((proof.foldl (verifyStep keccak) leaf) == root) := by
  cases proof <;> rfl

theorem pairUp_of_even (keccak : String → String) :
    ∀ l : List String, l.length % 2 = 0 → (pairUp keccak l).isSome := by
  intro l
  induction l using pairUp.induct keccak with
  | case1 => intro _; simp [pairUp]
  | case2 a => intro h; simp at h
  | case3 a b rest ih =>
    intro h
    have : rest.length % 2 = 0 := by simp at h; omega
    rcases Option.isSome_iff_exists.mp (ih this) with ⟨t, ht⟩
    simp [pairUp, ht]

theorem pairUp_getD (keccak : String → String) :
    ∀ l next, pairUp keccak l = some next → ∀ j, j < next.length →
      next.getD j "" = hashPair keccak (l.getD (2 * j) "") (l.getD (2 * j + 1) "") := by
  intro l
  induction l using pairUp.induct keccak with
  | case1 =>
    intro next h; simp [pairUp] at h; subst h; intro j hj; simp at hj
  | case2 a => intro next h; simp [pairUp] at h
  | case3 a b rest ih =>
    intro next h
    simp only [pairUp, Option.map_eq_some'] at h
    obtain ⟨t, ht, rfl⟩ := h
    intro j hj
    cases j with
    | zero => simp
    | succ j =>
      have hj' : j < t.length := by simp at hj; omega
      have e1 : (a :: b :: rest).getD (2 * (j + 1)) "" = rest.getD (2 * j) "" := by
        have h : 2 * (j + 1) = (2 * j) + 1 + 1 := by omega
        rw [h]; simp [List.getD_cons_succ]
      have e2 : (a :: b :: rest).getD (2 * (j + 1) + 1) "" = rest.getD (2 * j + 1) "" := by
        have h : 2 * (j + 1) + 1 = (2 * j + 1) + 1 + 1 := by omega
        rw [h]; simp [List.getD_cons_succ]
      rw [e1, e2]
      simp only [List.getD_cons_succ]
      exact ih t ht j hj'

theorem pairUp_mem (keccak : String → String) :
    ∀ l next, pairUp keccak l = some next → ∀ x ∈ next,
      ∃ a b, x = hashPair keccak a b := by
  intro l
  induction l using pairUp.induct keccak with
  | case1 => intro next h; simp [pairUp] at h; subst h; intro x hx; simp at hx
  | case2 a => intro next h; simp [pairUp] at h
  | case3 a b rest ih =>
    intro next h
    simp only [pairUp, Option.map_eq_some'] at h
    obtain ⟨t, ht, rfl⟩ := h
    intro x hx
    rcases List.mem_cons.mp hx with h | h
    · exact ⟨a, b, h⟩
    · exact ih t ht x h

theorem buildLevelsGo_chained (keccak : String → String) :
    ∀ f current lvls, current.length ≤ f → 1 ≤ current.length →
      buildLevelsGo keccak f current = some lvls →
      Chained keccak (current :: lvls) := by
  intro f
  induction f with
  | zero => intro current lvls hf h1 _; omega
  | succ f ih =>
    intro current lvls hf h1 hb
    simp only [buildLevelsGo] at hb
    by_cases hlen : current.length ≤ 1
    · have : current.length = 1 := by omega
      simp only [hlen, if_true] at hb
      cases hb
      exact Chained.single current this
    · simp only [hlen, if_false] at hb
      cases hp : pairUp keccak current with
      | none => rw [hp] at hb; cases hb
      | some next =>
        rw [hp] at hb
        simp only [Option.map_eq_some'] at hb
        obtain ⟨rest, hrest, rfl⟩ := hb
        have hpl := pairUp_length keccak current next hp
        have h1' : 1 ≤ next.length := by omega
        have hf' : next.length ≤ f := by omega
        exact Chained.step current next rest hp (ih next rest hf' h1' hrest)

theorem chained_last_length (keccak : String → String) :
    ∀ lvls, Chained keccak lvls → (lvls.getLastD []).length = 1 := by
  intro lvls h
  induction h with
  | single l hl => simpa using hl
  | step l next rest _ _ ih => simpa using ih

theorem chained_lowerFixed (keccak : String → String)
    (hk : ∀ s, lowerFixed (keccak s)) :
    ∀ lvls c, Chained keccak (c :: lvls) → (∀ s ∈ c, lowerFixed s) →
      ∀ l ∈ c :: lvls, ∀ s ∈ l, lowerFixed s := by
  intro lvls
  induction lvls with
  | nil =>
    intro c _ hc l hl s hs
    rcases List.mem_singleton.mp hl with rfl
    exact hc s hs
  | cons next rest ih =>
    intro c hch hc l hl s hs
    cases hch with
    | step _ _ _ hp hch' =>
      have hnext : ∀ s ∈ next, lowerFixed s := by
        intro x hx
        rcases pairUp_mem keccak c next hp x hx with ⟨a, b, rfl⟩
        unfold hashPair
        by_cases h : strLe (jsToLower a) (jsToLower b) = true
        · simp only [h, if_true]; exact hk _
        · simp only [h, if_false]; exact hk _
      rcases List.mem_cons.mp hl with rfl | hl'
      · exact hc s hs
      · exact ih next hch' hnext l hl' s hs

/-- Folding the proof collected by the level walk from the leaf recomputes the
root, for any chained level list of lower-fixed nodes. -/
theorem chained_verify (keccak : String → String)
    (hk : ∀ s, lowerFixed (keccak s)) :
    ∀ lvls, Chained keccak lvls → (∀ l ∈ lvls, ∀ s ∈ l, lowerFixed s) →
      ∀ idx, idx < (lvls.headD []).length →
        (proofWalk lvls idx).foldl (verifyStep keccak) ((lvls.headD []).getD idx "")
          = (lvls.getLastD []).getD 0 "" := by
  intro lvls hch
  induction hch with
  | single l hl =>
    intro _ idx hidx
    simp only [List.headD] at hidx
    have : idx = 0 := by omega
    subst this
    simp [proofWalk]
  | step l next rest hp hch' ih =>
    intro hlf idx hidx
    simp only [List.headD] at hidx
    have hpl := pairUp_length keccak l next hp
    have hsib : siblingIndexOf idx < l.length := by
      unfold siblingIndexOf
      by_cases h : idx % 2 = 0
      · simp only [h]; simp; omega
      · have : idx % 2 = 1 := by omega
        simp [this]; omega
    have hhalf : idx / 2 < next.length := by omega
    have hmeml : ∀ j, j < l.length → lowerFixed (l.getD j "") := by
      intro j hj
      rw [List.getD_eq_getElem l "" hj]
      exact hlf l (List.mem_cons_self _ _) _ (List.getElem_mem hj)
    have hstep : verifyStep keccak (l.getD idx "") (l.getD (siblingIndexOf idx) "")
        = next.getD (idx / 2) "" := by
      rw [pairUp_getD keccak l next hp (idx / 2) hhalf]
      by_cases h : idx % 2 = 0
      · have hs : siblingIndexOf idx = idx + 1 := by unfold siblingIndexOf; simp [h]
        have h1 : 2 * (idx / 2) = idx := by omega
        rw [hs, h1]
        exact verifyStep_eq keccak _ _ (hmeml idx hidx) (hmeml _ (hs ▸ hsib))
      · have hodd : idx % 2 = 1 := by omega
        have hs : siblingIndexOf idx = idx - 1 := by
          unfold siblingIndexOf; simp [h]
        have h2 : 2 * (idx / 2) + 1 = idx := by omega
        have h1 : 2 * (idx / 2) = idx - 1 := by omega
        rw [h2, h1, hs]
        rw [verifyStep_eq keccak _ _ (hmeml idx hidx) (hmeml _ (hs ▸ hsib))]
        exact hashPair_comm keccak _ _ (hmeml idx hidx) (hmeml _ (hs ▸ hsib))
    have hlf' : ∀ l' ∈ next :: rest, ∀ s ∈ l', lowerFixed s := by
      intro l' hl' s hs
      exact hlf l' (List.mem_cons_of_mem _ hl') s hs
    calc (proofWalk (l :: next :: rest) idx).foldl (verifyStep keccak) (l.getD idx "")
        = (proofWalk (next :: rest) (idx / 2)).foldl (verifyStep keccak)
            (next.getD (idx / 2) "") := by
          simp only [proofWalk, if_pos hsib, List.singleton_append, List.foldl_cons, hstep]
      _ = ((next :: rest).getLastD []).getD 0 "" := by
          have := ih hlf' (idx / 2) (by simpa using hhalf)
          simpa using this
      _ = ((l :: next :: rest).getLastD []).getD 0 "" := by simp

theorem getLastD_mem {α : Type} : ∀ (l : List α) (d : α), l ≠ [] → l.getLastD d ∈ l := by
  intro l
  induction l with
  | nil => intro d h; exact absurd rfl h
  | cons a t ih =>
    intro d _
    cases t with
    | nil => simp [List.getLastD]
    | cons b t' =>
      have := ih d (by simp)
      simp only [List.getLastD] at this ⊢
      exact List.mem_cons_of_mem a this

theorem strLeAux_refl : ∀ a : List Char, strLeAux a a = true := by
  intro a
  induction a with
  | nil => simp [strLeAux]
  | cons c cs ih => simp [strLeAux, ih]

theorem strLe_refl (a : String) : strLe a a = true := strLeAux_refl a.data

theorem buildLevelsGo_isSome_iff (keccak : String → String) :
    ∀ f current, current.length ≤ f → 1 ≤ current.length →
      ((buildLevelsGo keccak f current).isSome ↔ ∃ k, current.length = 2 ^ k) := by
  intro f
  induction f with
  | zero => intro current hf h1; omega
  | succ f ih =>
    intro current hf h1
    simp only [buildLevelsGo]
    by_cases hlen : current.length ≤ 1
    · have h1' : current.length = 1 := by omega
      simp only [hlen, if_true, Option.isSome_some, true_iff]
      exact ⟨0, by simp [h1']⟩
    · simp only [hlen, if_false]
      cases hp : pairUp keccak current with
      | none =>
        simp only [Option.isSome_none, Bool.false_eq_true, false_iff]
        rintro ⟨k, hk⟩
        have hk1 : 1 ≤ k := by
          by_contra h0
          have : k = 0 := by omega
          rw [this] at hk; simp at hk; omega
        have heven : current.length % 2 = 0 := by
          have h2 : (2:Nat) ^ k = 2 * 2 ^ (k - 1) := by
            obtain ⟨k', rfl⟩ : ∃ k', k = k' + 1 := ⟨k - 1, by omega⟩
            simp [pow_succ]; ring
          rw [hk, h2]; omega
        have := pairUp_of_even keccak current heven
        rw [hp] at this; simp at this
      | some next =>
        have hpl := pairUp_length keccak current next hp
        have h1' : 1 ≤ next.length := by omega
        have hf' : next.length ≤ f := by omega
        rw [Option.isSome_map', ih next hf' h1']
        constructor
        · rintro ⟨k, hk⟩
          exact ⟨k + 1, by rw [hpl, hk, pow_succ]; ring⟩
        · rintro ⟨k, hk⟩
          have hk1 : 1 ≤ k := by
            by_contra h0
            have : k = 0 := by omega
            rw [this] at hk; simp at hk; omega
          refine ⟨k - 1, ?_⟩
          have h2 : (2:Nat) ^ k = 2 * 2 ^ (k - 1) := by
            obtain ⟨k', rfl⟩ : ∃ k', k = k' + 1 := ⟨k - 1, by omega⟩
            simp [pow_succ]; ring
          rw [hk, h2] at hpl
          omega

theorem buildLevelsGo_length (keccak : String → String) :
    ∀ f current lvls k, current.length ≤ f → current.length = 2 ^ k →
      buildLevelsGo keccak f current = some lvls → lvls.length = k := by
  intro f
  induction f with
  | zero =>
    intro current lvls k hf hk _
    have := Nat.one_le_two_pow (n := k)
    omega
  | succ f ih =>
    intro current lvls k hf hk hb
    simp only [buildLevelsGo] at hb
    by_cases hlen : current.length ≤ 1
    · have h1 : current.length = 1 := by
        have := Nat.one_le_two_pow (n := k)
        omega
      have hk0 : k = 0 := by
        by_contra h0
        have := Nat.one_lt_two_pow (n := k) h0
        omega
      simp only [hlen, if_true, Option.some_inj] at hb
      rw [← hb, hk0]
      rfl
    · simp only [hlen, if_false] at hb
      cases hp : pairUp keccak current with
      | none => rw [hp] at hb; cases hb
      | some next =>
        rw [hp] at hb
        simp only [Option.map_eq_some'] at hb
        obtain ⟨rest, hrest, rfl⟩ := hb
        have hpl := pairUp_length keccak current next hp
        have hk1 : 1 ≤ k := by
          by_contra h0
          have : k = 0 := by omega
          rw [this] at hk; simp at hk; omega
        have h2 : (2:Nat) ^ k = 2 * 2 ^ (k - 1) := by
          obtain ⟨k', rfl⟩ : ∃ k', k = k' + 1 := ⟨k - 1, by omega⟩
          simp [pow_succ]; ring
        have hnext : next.length = 2 ^ (k - 1) := by
          rw [hk, h2] at hpl; omega
        have hf' : next.length ≤ f := by
          have := Nat.one_le_two_pow (n := k - 1)
          omega
        have := ih next rest (k - 1) hf' hnext hrest
        simp [this]
        omega

theorem buildTree_cons (keccak : String → String) (x : String) (xs : List String) :
    buildTree keccak (x :: xs) =
      (buildLevels keccak (padLeaves (x :: xs))).map
        (fun lvls =>
          { root := ((padLeaves (x :: xs) :: lvls).getLastD []).getD 0 ""
            tree := padLeaves (x :: xs) :: lvls
            proofs := generateProofs (padLeaves (x :: xs) :: lvls) (x :: xs) }) := by
  cases h : buildLevels keccak (padLeaves (x :: xs)) <;> simp [buildTree, h]

theorem le_padLeaves_length (leaves : List String) :
    leaves.length ≤ (padLeaves leaves).length := by
  unfold padLeaves
  by_cases h : (leaves.length % 2 == 1) = true <;> simp [h]

theorem padLeaves_getD (leaves : List String) (i : Nat) (hi : i < leaves.length) :
    (padLeaves leaves).getD i "" = leaves.getD i "" := by
  unfold padLeaves
  by_cases h : (leaves.length % 2 == 1) = true
  · simp only [h, if_true]
    exact List.getD_append _ _ _ _ hi
  · simp [h]

theorem padLeaves_mem (leaves : List String) (h : leaves ≠ []) :
    ∀ x ∈ padLeaves leaves, x ∈ leaves := by
  unfold padLeaves
  by_cases hc : (leaves.length % 2 == 1) = true
  · simp only [hc, if_true]
    intro x hx
    rcases List.mem_append.mp hx with hx | hx
    · exact hx
    · rcases List.mem_singleton.mp hx with rfl
      exact getLastD_mem leaves "" h
  · simp [hc]

theorem lookupProof_setKey_same (m : List (String × List String)) (k : String)
    (v : List String) : lookupProof (setKey m k v) k = some v := by
  induction m with
  | nil => simp [setKey, lookupProof]
  | cons p rest ih =>
    obtain ⟨k0, v0⟩ := p
    by_cases h : (k0 == k) = true
    · simp [setKey, h, lookupProof]
    · simp [setKey, h, lookupProof, ih]

theorem lookupProof_setKey_ne (m : List (String × List String)) (k : String)
    (v : List String) (x : String) (h : x ≠ k) :
    lookupProof (setKey m k v) x = lookupProof m x := by
  induction m with
  | nil =>
    have : (k == x) = false := by
      simp only [beq_eq_false_iff_ne, ne_eq]
      exact fun hk => h hk.symm
    simp [setKey, lookupProof, this]
  | cons p rest ih =>
    obtain ⟨k0, v0⟩ := p
    by_cases h0 : (k0 == k) = true
    · have hkx : (k0 == x) = false := by
        have : k0 = k := by simpa using h0
        subst this
        simp only [beq_eq_false_iff_ne, ne_eq]
        exact fun hk => h hk.symm
      simp [setKey, h0, lookupProof, hkx]
    · by_cases h1 : (k0 == x) = true
      · simp [setKey, h0, lookupProof, h1]
      · simp [setKey, h0, lookupProof, h1, ih]

theorem mapFst_setKey (m : List (String × List String)) (k : String) (v : List String) :
    (setKey m k v).map Prod.fst =
      if k ∈ m.map Prod.fst then m.map Prod.fst else m.map Prod.fst ++ [k] := by
  induction m with
  | nil => simp [setKey]
  | cons p rest ih =>
    obtain ⟨k0, v0⟩ := p
    by_cases h : (k0 == k) = true
    · have : k0 = k := by simpa using h
      subst this
      simp [setKey, h]
    · have hne : k0 ≠ k := by simpa using h
      have hne' : ¬ k = k0 := fun hk => hne hk.symm
      rw [show setKey ((k0, v0) :: rest) k v = (k0, v0) :: setKey rest k v from by
        simp [setKey, h]]
      simp only [List.map_cons, List.mem_cons]
      rw [ih]
      by_cases hm : k ∈ rest.map Prod.fst
      · simp [hm, hne']
      · simp [hm, hne']

theorem nodup_mapFst_setKey (m : List (String × List String)) (k : String)
    (v : List String) (h : (m.map Prod.fst).Nodup) :
    ((setKey m k v).map Prod.fst).Nodup := by
  rw [mapFst_setKey]
  by_cases hm : k ∈ m.map Prod.fst
  · simpa [hm] using h
  · simp only [hm, if_false]
    simp [List.nodup_append, h, hm]

theorem nodup_foldl_setKey (f : Nat → String) (g : Nat → List String) :
    ∀ (idxs : List Nat) (m : List (String × List String)), (m.map Prod.fst).Nodup →
      ((idxs.foldl (fun m i => setKey m (f i) (g i)) m).map Prod.fst).Nodup := by
  intro idxs
  induction idxs with
  | nil => intro m h; simpa using h
  | cons i rest ih =>
    intro m h
    exact ih _ (nodup_mapFst_setKey m (f i) (g i) h)

theorem generateProofs_nodup_keys (tree : List (List String)) (leaves : List String) :
    ((generateProofs tree leaves).map Prod.fst).Nodup := by
  unfold generateProofs
  exact nodup_foldl_setKey _ _ (List.range leaves.length) [] (by simp)

theorem lookupProof_foldl_setKey (f : Nat → String) (g : Nat → List String)
    (leaves : List String) (hf : ∀ i, f i = leaves.getD i "") :
    ∀ (n : Nat) (m : List (String × List String)) (x : String),
      lookupProof ((List.range n).foldl (fun m i => setKey m (f i) (g i)) m) x =
        match lastOccurrence leaves n x with
        | some j => some (g j)
        | none => lookupProof m x := by
  intro n
  induction n with
  | zero => intro m x; simp [lastOccurrence]
  | succ n ih =>
    intro m x
    rw [List.range_succ, List.foldl_append]
    simp only [List.foldl_cons, List.foldl_nil]
    by_cases h : (leaves.getD n "" == x) = true
    · have hfx : f n = x := by
        rw [hf n]
        exact eq_of_beq h
      rw [hfx, lookupProof_setKey_same]
      have hlast : lastOccurrence leaves (n + 1) x = some n := by
        simp only [lastOccurrence, h, if_true]
      rw [hlast]
    · have hfx : x ≠ f n := by
        rw [hf n]
        intro he
        rw [he] at h
        simp at h
      rw [lookupProof_setKey_ne _ _ _ _ hfx, ih m x]
      have hb : (leaves.getD n "" == x) = false := by
        simp only [Bool.not_eq_true] at h
        exact h
      have hlast : lastOccurrence leaves (n + 1) x = lastOccurrence leaves n x := by
        simp only [lastOccurrence, hb, Bool.false_eq_true, if_false]
      rw [hlast]

theorem lastOccurrence_spec (leaves : List String) :
    ∀ (n : Nat) (x : String) (i : Nat), i < n → leaves.getD i "" = x →
      ∃ j, lastOccurrence leaves n x = some j ∧ i ≤ j ∧ j < n ∧
        leaves.getD j "" = x ∧
        (∀ j', j < j' → j' < n → leaves.getD j' "" ≠ x) := by
  intro n
  induction n with
  | zero => intro x i hi; omega
  | succ n ih =>
    intro x i hi hx
    by_cases h : (leaves.getD n "" == x) = true
    · refine ⟨n, ?_, by omega, by omega, eq_of_beq h, ?_⟩
      · simp only [lastOccurrence, h, if_true]
      · intro j' h1 h2; omega
    · have hne : leaves.getD n "" ≠ x := by simpa using h
      have hb : (leaves.getD n "" == x) = false := by
        simp only [Bool.not_eq_true] at h
        exact h
      have hi' : i < n := by
        rcases Nat.lt_succ_iff_lt_or_eq.mp hi with h' | h'
        · exact h'
        · subst h'; exact absurd hx hne
      obtain ⟨j, hj1, hj2, hj3, hj4, hj5⟩ := ih x i hi' hx
      refine ⟨j, ?_, hj2, by omega, hj4, ?_⟩
      · simp only [lastOccurrence, hb, Bool.false_eq_true, if_false]
        exact hj1
      · intro j' hlt hlt'
        by_cases hj' : j' < n
        · exact hj5 j' hlt hj'
        · have : j' = n := by omega
          subst this
          exact hne

end MerkleTree

section

open MerkleTree

/-- C1 (counterexample): the claim quantifies over every non-empty leaf list,
but `buildTree` does not even return for six leaves — the second level has
three nodes, the pairing loop reads past its end and the build throws — so no
successful verification can follow.  Modelled crash = `none`, shown here at a
concrete hash function and six concrete leaves. -/
theorem c1_cx_six_leaves_crash :
    buildTree (fun _ => "0x11") ["0xb1", "0xb2", "0xb3", "0xb4", "0xb5", "0xb6"]
      = none := by decide

/-- C1 (amended): whenever `buildTree` succeeds (equivalently, the padded leaf
count is a power of two) and the leaf hashes and keccak outputs are lowercase
(as `ethers.keccak256` hex digests are), verifying the `i`-th leaf with the
proof generated for index `i` against the returned root succeeds. -/
theorem c1_build_then_verify (keccak : String → String) (leaves : List String)
    (hk : ∀ s, lowerFixed (keccak s)) (hl : ∀ l ∈ leaves, lowerFixed l)
    (i : Nat) (hi : i < leaves.length)
    (hsome : (buildTree keccak leaves).isSome = true) :
    (buildTree keccak leaves).map (fun res =>
        verifyProof keccak (leaves.getD i "") (generateProofForIndex res.tree i) res.root)
      = some true := by
  cases leaves with
  | nil => simp at hi
  | cons x xs =>
    rw [buildTree_cons] at hsome ⊢
    cases hb : buildLevels keccak (padLeaves (x :: xs)) with
    | none => rw [hb] at hsome; simp at hsome
    | some lvls =>
      simp only [Option.map_some', Option.some_inj]
      have hlen1 : 1 ≤ (padLeaves (x :: xs)).length := by
        have := le_padLeaves_length (x :: xs)
        simp at this
        omega
      have hb' : buildLevelsGo keccak (padLeaves (x :: xs)).length (padLeaves (x :: xs))
          = some lvls := hb
      have hch := buildLevelsGo_chained keccak (padLeaves (x :: xs)).length
        (padLeaves (x :: xs)) lvls le_rfl hlen1 hb'
      have hlf0 : ∀ s ∈ padLeaves (x :: xs), lowerFixed s := by
        intro s hs
        exact hl s (padLeaves_mem (x :: xs) (by simp) s hs)
      have hlf := chained_lowerFixed keccak hk lvls (padLeaves (x :: xs)) hch hlf0
      have hip : i < (padLeaves (x :: xs)).length :=
        lt_of_lt_of_le hi (le_padLeaves_length (x :: xs))
      have hv := chained_verify keccak hk (padLeaves (x :: xs) :: lvls) hch hlf i
        (by simpa using hip)
      rw [verifyProof_eq_foldl]
      have hleaf : (x :: xs).getD i "" = (padLeaves (x :: xs)).getD i "" :=
        (padLeaves_getD (x :: xs) i hi).symm
      rw [hleaf]
      simp only [List.headD] at hv
      show ((proofWalk (padLeaves (x :: xs) :: lvls) i).foldl (verifyStep keccak)
        ((padLeaves (x :: xs)).getD i "")
          == ((padLeaves (x :: xs) :: lvls).getLastD []).getD 0 "") = true
      rw [hv]
      exact beq_self_eq_true _

/-- C1 (witness): the amended theorem applied at a two-leaf list and a
concrete (constant, lowercase-valued) hash function. -/
theorem c1_build_then_verify_witness :
    (∀ s, lowerFixed ((fun _ : String => "0x11") s))
    ∧ (∀ l ∈ (["0xaa", "0xbb"] : List String), lowerFixed l)
    ∧ 0 < (["0xaa", "0xbb"] : List String).length
    ∧ ((buildTree (fun _ : String => "0x11") ["0xaa", "0xbb"]).isSome = true)
    ∧ (buildTree (fun _ : String => "0x11") ["0xaa", "0xbb"]).map (fun res =>
        verifyProof (fun _ : String => "0x11") ((["0xaa", "0xbb"] : List String).getD 0 "")
          (generateProofForIndex res.tree 0) res.root) = some true :=
  ⟨fun _ => (by decide : lowerFixed "0x11"), by decide, by decide, by decide,
    c1_build_then_verify (fun _ : String => "0x11") ["0xaa", "0xbb"]
      (fun _ => (by decide : lowerFixed "0x11"))
      (by decide) 0 (by decide) (by decide)⟩

/-- C2 (counterexample): with five leaves (padded to six) the build does not
complete: after one pairing pass the level has three nodes and the next pass
reads past its end, so `buildTree` throws instead of returning a tree. -/
theorem c2_cx_five_leaves_crash :
    buildTree (fun _ => "0x11") ["0xa1", "0xa2", "0xa3", "0xa4", "0xa5"]
      = none := by decide

/-- C2 (amended): for a non-empty leaf list, `buildTree` completes without
error exactly when the padded leaf count is a power of two; on success the
top level holds exactly one node and the level count is `log2(padded) + 1`,
which equals `⌈log2 n⌉ + 1` whenever `n ≥ 2` (for `n = 1` the single leaf is
duplicated and the count is `2`, not `⌈log2 1⌉ + 1 = 1`). -/
theorem c2_buildTree_levels (keccak : String → String) (leaves : List String)
    (h : leaves ≠ []) :
    ((buildTree keccak leaves).isSome ↔ ∃ k, (padLeaves leaves).length = 2 ^ k)
    ∧ (∀ res : MerkleTree.BuildResult, buildTree keccak leaves = some res →
        (res.tree.getLastD []).length = 1
        ∧ (∀ k, (padLeaves leaves).length = 2 ^ k → res.tree.length = k + 1)
        ∧ (2 ≤ leaves.length → res.tree.length = Nat.clog 2 leaves.length + 1)) := by
  cases leaves with
  | nil => exact absurd rfl h
  | cons x xs =>
    have hlen1 : 1 ≤ (padLeaves (x :: xs)).length := by
      have := le_padLeaves_length (x :: xs)
      simp at this
      omega
    constructor
    · rw [buildTree_cons, Option.isSome_map']
      exact buildLevelsGo_isSome_iff keccak (padLeaves (x :: xs)).length
        (padLeaves (x :: xs)) le_rfl hlen1
    · intro res hres
      rw [buildTree_cons] at hres
      rcases Option.map_eq_some'.mp hres with ⟨lvls, hb, hres'⟩
      subst hres'
      have hb' : buildLevelsGo keccak (padLeaves (x :: xs)).length (padLeaves (x :: xs))
          = some lvls := hb
      have hch := buildLevelsGo_chained keccak (padLeaves (x :: xs)).length
        (padLeaves (x :: xs)) lvls le_rfl hlen1 hb'
      refine ⟨?_, ?_, ?_⟩
      · show ((padLeaves (x :: xs) :: lvls).getLastD []).length = 1
        exact chained_last_length keccak _ hch
      · intro k hk
        have := buildLevelsGo_length keccak (padLeaves (x :: xs)).length
          (padLeaves (x :: xs)) lvls k le_rfl hk hb'
        show (padLeaves (x :: xs) :: lvls).length = k + 1
        simp [this]
      · intro hn2
        have hex : ∃ k, (padLeaves (x :: xs)).length = 2 ^ k := by
          have hiff := buildLevelsGo_isSome_iff keccak (padLeaves (x :: xs)).length
            (padLeaves (x :: xs)) le_rfl hlen1
          apply hiff.mp
          rw [hb']
          rfl
        obtain ⟨k, hk⟩ := hex
        have hlvls := buildLevelsGo_length keccak (padLeaves (x :: xs)).length
          (padLeaves (x :: xs)) lvls k le_rfl hk hb'
        have htl : (padLeaves (x :: xs) :: lvls).length = k + 1 := by simp [hlvls]
        show (padLeaves (x :: xs) :: lvls).length = Nat.clog 2 (x :: xs).length + 1
        rw [htl]
        have hclog : Nat.clog 2 (x :: xs).length = k := by
          by_cases hpar : ((x :: xs).length % 2 == 1) = true
          · have hplen : (padLeaves (x :: xs)).length = (x :: xs).length + 1 := by
              unfold padLeaves
              rw [if_pos hpar]
              simp
            have hn : (x :: xs).length = 2 ^ k - 1 := by omega
            have hodd : (x :: xs).length % 2 = 1 := by simpa using hpar
            have hk2 : 2 ≤ k := by
              by_contra hk2
              interval_cases k <;> omega
            have h2k : (2:Nat) ^ k = 2 * 2 ^ (k - 1) := by
              obtain ⟨k', rfl⟩ : ∃ k', k = k' + 1 := ⟨k - 1, by omega⟩
              simp [pow_succ]; ring
            have hle : Nat.clog 2 (x :: xs).length ≤ k :=
              (Nat.le_pow_iff_clog_le (by norm_num)).mp (by omega)
            have hge : k ≤ Nat.clog 2 (x :: xs).length := by
              by_contra hlt
              have h1 : Nat.clog 2 (x :: xs).length ≤ k - 1 := by omega
              have h2 : (x :: xs).length ≤ 2 ^ (k - 1) :=
                (Nat.le_pow_iff_clog_le (by norm_num)).mpr h1
              have h3 : 1 ≤ (2:Nat) ^ (k - 1) := Nat.one_le_two_pow
              omega
            omega
          · have hplen : (padLeaves (x :: xs)).length = (x :: xs).length := by
              unfold padLeaves
              rw [if_neg hpar]
            rw [← hplen, hk]
            exact Nat.clog_pow 2 k (by norm_num)
        rw [hclog]

/-- C2 (witness): the amended theorem applied at a concrete two-leaf list. -/
theorem c2_buildTree_levels_witness :
    (["0xaa", "0xbb"] : List String) ≠ []
    ∧ (((buildTree (fun _ => "0x11") ["0xaa", "0xbb"]).isSome
          ↔ ∃ k, (padLeaves ["0xaa", "0xbb"]).length = 2 ^ k)
       ∧ (∀ res : MerkleTree.BuildResult,
            buildTree (fun _ => "0x11") ["0xaa", "0xbb"] = some res →
            (res.tree.getLastD []).length = 1
            ∧ (∀ k, (padLeaves ["0xaa", "0xbb"]).length = 2 ^ k → res.tree.length = k + 1)
            ∧ (2 ≤ (["0xaa", "0xbb"] : List String).length →
                res.tree.length = Nat.clog 2 (["0xaa", "0xbb"] : List String).length + 1))) :=
  ⟨by decide, c2_buildTree_levels (fun _ => "0x11") ["0xaa", "0xbb"] (by decide)⟩

/-- C5 (counterexample): for the single-leaf list `["0xcc"]` (with a concrete
hash function) the root is the hash of the duplicated leaf pair, not the leaf
itself; the stored proof for the leaf is `["0xcc"]`, not empty; and verifying
the empty proof fails. -/
theorem c5_cx_single_leaf :
    (buildTree (fun _ : String => "0x11") ["0xcc"]).map
        (fun res => (res.root, lookupProof res.proofs "0xcc",
          verifyProof (fun _ : String => "0x11") "0xcc" [] res.root))
      = some ("0x11", some ["0xcc"], false)
    ∧ ("0x11" : String) ≠ "0xcc" := by decide

/-- C5 (amended): a single leaf is padded to a duplicated pair, so the build
succeeds with root `hashPair(leaf, leaf)`, the proof stored for the leaf is
the one-element list `[leaf]`, verifying that proof succeeds, and the empty
proof verifies only if the leaf happens to equal the root. -/
theorem c5_single_leaf_tree (keccak : String → String) (l : String) :
    (buildTree keccak [l]).isSome = true
    ∧ (∀ res : MerkleTree.BuildResult, buildTree keccak [l] = some res →
        res.root = hashPair keccak l l
        ∧ lookupProof res.proofs l = some [l]
        ∧ verifyProof keccak l [l] res.root = true
        ∧ verifyProof keccak l [] res.root = (l == res.root)) := by
  have hbt : buildTree keccak [l] =
      some { root := hashPair keccak l l
             tree := [[l, l], [hashPair keccak l l]]
             proofs := [(l, [l])] } := rfl
  refine ⟨by rw [hbt]; rfl, ?_⟩
  intro res hres
  rw [hbt, Option.some_inj] at hres
  subst hres
  refine ⟨rfl, ?_, ?_, rfl⟩
  · simp [lookupProof]
  · show ((([l].foldl (verifyStep keccak) l)) == hashPair keccak l l) = true
    simp only [List.foldl_cons, List.foldl_nil]
    rw [show verifyStep keccak l l = hashPair keccak l l from by
      unfold verifyStep
      rw [if_pos (strLe_refl l)]]
    exact beq_self_eq_true _

/-- C5 (witness): the amended theorem applied at a concrete leaf and hash. -/
theorem c5_single_leaf_tree_witness :
    buildTree (fun _ : String => "0x11") ["0xcc"] =
      some { root := "0x11", tree := [["0xcc", "0xcc"], ["0x11"]],
             proofs := [("0xcc", ["0xcc"])] }
    ∧ (("0x11" : String) = hashPair (fun _ : String => "0x11") "0xcc" "0xcc"
        ∧ lookupProof [("0xcc", ["0xcc"])] "0xcc" = some ["0xcc"]
        ∧ verifyProof (fun _ : String => "0x11") "0xcc" ["0xcc"] "0x11" = true
        ∧ verifyProof (fun _ : String => "0x11") "0xcc" [] "0x11" = ("0xcc" == "0x11")) :=
  ⟨by decide,
    (c5_single_leaf_tree (fun _ : String => "0x11") "0xcc").2
      { root := "0x11", tree := [["0xcc", "0xcc"], ["0x11"]],
        proofs := [("0xcc", ["0xcc"])] } (by decide)⟩

/-- C10 (confirmed): the proofs object returned by `buildTree` is keyed by
leaf hash value — its keys are distinct — and when a leaf value occurs at
several indices the stored proof is the one generated for the greatest (last)
occurrence: looking up the value of any index `i` yields the proof for the
last index carrying that same value. -/
theorem c10_proofs_last_occurrence (tree : List (List String)) (leaves : List String)
    (i : Nat) (hi : i < leaves.length) :
    ((generateProofs tree leaves).map Prod.fst).Nodup
    ∧ ∃ j, i ≤ j ∧ j < leaves.length
        ∧ leaves.getD j "" = leaves.getD i ""
        ∧ (∀ j', j < j' → j' < leaves.length → leaves.getD j' "" ≠ leaves.getD i "")
        ∧ lookupProof (generateProofs tree leaves) (leaves.getD i "")
            = some (generateProofForIndex tree j) := by
  refine ⟨generateProofs_nodup_keys tree leaves, ?_⟩
  obtain ⟨j, hj1, hj2, hj3, hj4, hj5⟩ :=
    lastOccurrence_spec leaves leaves.length (leaves.getD i "") i hi rfl
  refine ⟨j, hj2, hj3, hj4, hj5, ?_⟩
  unfold generateProofs
  rw [lookupProof_foldl_setKey (fun i => leaves.getD i "")
    (fun i => generateProofForIndex tree i) leaves (fun _ => rfl)
    leaves.length [] (leaves.getD i "")]
  rw [hj1]

/-- C10 (witness): the theorem applied at a concrete leaf list with a
duplicated value; the lookup for index 0 returns the proof computed for the
last occurrence (index 2). -/
theorem c10_proofs_last_occurrence_witness :
    0 < (["0xaa", "0xbb", "0xaa"] : List String).length
    ∧ (((generateProofs [["0xaa", "0xbb", "0xaa", "0xaa"]] ["0xaa", "0xbb", "0xaa"]).map
          Prod.fst).Nodup
       ∧ ∃ j, 0 ≤ j ∧ j < (["0xaa", "0xbb", "0xaa"] : List String).length
           ∧ (["0xaa", "0xbb", "0xaa"] : List String).getD j ""
               = (["0xaa", "0xbb", "0xaa"] : List String).getD 0 ""
           ∧ (∀ j', j < j' → j' < (["0xaa", "0xbb", "0xaa"] : List String).length →
               (["0xaa", "0xbb", "0xaa"] : List String).getD j' ""
                 ≠ (["0xaa", "0xbb", "0xaa"] : List String).getD 0 "")
           ∧ lookupProof (generateProofs [["0xaa", "0xbb", "0xaa", "0xaa"]]
                 ["0xaa", "0xbb", "0xaa"])
               ((["0xaa", "0xbb", "0xaa"] : List String).getD 0 "")
             = some (generateProofForIndex [["0xaa", "0xbb", "0xaa", "0xaa"]] j)) :=
  ⟨by decide,
    c10_proofs_last_occurrence [["0xaa", "0xbb", "0xaa", "0xaa"]]
      ["0xaa", "0xbb", "0xaa"] 0 (by decide)⟩

end

namespace NumberPacking

theorem shiftLeft_lor_distrib (a b k : Nat) :
    (a ||| b) <<< k = (a <<< k) ||| (b <<< k) := by
  apply Nat.eq_of_testBit_eq
  intro j
  simp only [Nat.testBit_shiftLeft, Nat.testBit_lor]
  by_cases h : k ≤ j
  · simp [ge_iff_le, h]
  · simp [ge_iff_le, h]

theorem packLotofacil_fold_testBit (s : List Nat) :
    ∀ (init : Nat) (j : Nat),
      (s.foldl (fun packed n => packed ||| (1 <<< (n - 1))) init).testBit j
        = (init.testBit j || s.any (fun n => n - 1 == j)) := by
  induction s with
  | nil => intro init j; simp
  | cons n rest ih =>
    intro init j
    rw [List.foldl_cons, ih]
    simp only [Nat.testBit_lor, Nat.one_shiftLeft, Nat.testBit_two_pow, List.any_cons]
    by_cases h : n - 1 = j
    · simp [h]
    · have hb : (n - 1 == j) = false := by simpa using h
      simp [h, hb]

theorem packSuperseteGo_succ (cs : List Nat) :
    ∀ i, packSuperseteGo cs (i + 1) = (packSuperseteGo cs i) <<< 4 := by
  induction cs with
  | nil => intro i; simp [packSuperseteGo, Nat.zero_shiftLeft]
  | cons c cs ih =>
    intro i
    show (c <<< ((i + 1) * 4)) ||| packSuperseteGo cs (i + 2) =
      ((c <<< (i * 4)) ||| packSuperseteGo cs (i + 1)) <<< 4
    rw [shiftLeft_lor_distrib, ih (i + 1)]
    have : (i + 1) * 4 = i * 4 + 4 := by ring
    rw [this, Nat.shiftLeft_add]

theorem packSuperseteGo_zero_cons (c : Nat) (cs : List Nat) :
    packSuperseteGo (c :: cs) 0 = c ||| ((packSuperseteGo cs 0) <<< 4) := by
  show (c <<< (0 * 4)) ||| packSuperseteGo cs 1 = c ||| ((packSuperseteGo cs 0) <<< 4)
  rw [packSuperseteGo_succ cs 0]
  norm_num

theorem packSuperseteGo_zero_testBit (cs : List Nat) (h : ∀ c ∈ cs, c < 16) :
    ∀ m, (packSuperseteGo cs 0).testBit m = (cs.getD (m / 4) 0).testBit (m % 4) := by
  induction cs with
  | nil => intro m; simp [packSuperseteGo]
  | cons c cs ih =>
    intro m
    rw [packSuperseteGo_zero_cons]
    simp only [Nat.testBit_lor, Nat.testBit_shiftLeft]
    by_cases hm : m < 4
    · have h4 : ¬ (4 ≤ m) := by omega
      have hd : m / 4 = 0 := by omega
      have hr : m % 4 = m := by omega
      simp [ge_iff_le, h4, hd, hr]
    · have h4 : 4 ≤ m := by omega
      have hc : c.testBit m = false := by
        apply Nat.testBit_lt_two_pow
        calc c < 16 := h c (List.mem_cons_self _ _)
          _ = 2 ^ 4 := by norm_num
          _ ≤ 2 ^ m := Nat.pow_le_pow_right (by norm_num) h4
      have hd : m / 4 = (m - 4) / 4 + 1 := by omega
      have hr : m % 4 = (m - 4) % 4 := by omega
      rw [hc, ih (fun x hx => h x (List.mem_cons_of_mem _ hx)) (m - 4), hd, hr]
      simp [ge_iff_le, h4]

theorem unpackSupersete_packGo (cs : List Nat) (hlen : cs.length = 7)
    (h : ∀ c ∈ cs, c < 16) :
    unpackSupersete (packSuperseteGo cs 0) = cs := by
  unfold unpackSupersete
  apply List.ext_getElem
  · simp [hlen]
  · intro n h1 h2
    simp only [List.getElem_map, List.getElem_range]
    apply Nat.eq_of_testBit_eq
    intro t
    have h15 : (15 : Nat) = 2 ^ 4 - 1 := by norm_num
    rw [h15]
    simp only [Nat.testBit_land, Nat.testBit_shiftRight, Nat.testBit_two_pow_sub_one]
    rw [packSuperseteGo_zero_testBit cs h (n * 4 + t)]
    by_cases ht : t < 4
    · have hd : (n * 4 + t) / 4 = n := by omega
      have hr : (n * 4 + t) % 4 = t := by omega
      rw [hd, hr]
      have hn : n < cs.length := by
        simp at h2
        omega
      rw [List.getD_eq_getElem cs 0 hn]
      simp [ht]
    · have hcs : cs[n] < 16 := h _ (List.getElem_mem _)
      have hb : cs[n].testBit t = false := by
        apply Nat.testBit_lt_two_pow
        calc cs[n] < 16 := hcs
          _ = 2 ^ 4 := by norm_num
          _ ≤ 2 ^ t := Nat.pow_le_pow_right (by norm_num) (by omega)
      rw [hb]
      simp [ht]

theorem validateLotofasil_spec (s : List Nat) (h : validateLotofasilNumbers s = true) :
    s.length = 15 ∧ (∀ n ∈ s, 1 ≤ n ∧ n ≤ 25) ∧ s.Nodup := by
  simp only [validateLotofasilNumbers, Bool.and_eq_true, beq_iff_eq, List.all_eq_true,
    decide_eq_true_eq] at h
  obtain ⟨⟨h1, h2⟩, h3⟩ := h
  refine ⟨h1, ?_, h3⟩
  intro n hn
  have := h2 n hn
  simp only [Bool.and_eq_true, decide_eq_true_eq] at this
  exact this

theorem validateSupersete_spec (s : List Nat) (h : validateSuperseteNumbers s = true) :
    s.length = 7 ∧ ∀ n ∈ s, n ≤ 9 := by
  simp only [validateSuperseteNumbers, Bool.and_eq_true, beq_iff_eq, List.all_eq_true,
    decide_eq_true_eq] at h
  exact h

theorem packLotofacil_testBit (s : List Nat) (i : Nat) :
    (s.foldl (fun packed n => packed ||| (1 <<< (n - 1))) 0).testBit i
      = s.any (fun n => n - 1 == i) := by
  rw [packLotofacil_fold_testBit s 0 i]
  simp

theorem unpackLotofacil_packed (s : List Nat) (hv : validateLotofasilNumbers s = true) :
    List.Perm (unpackLotofacil (s.foldl (fun packed n => packed ||| (1 <<< (n - 1))) 0)) s
    ∧ (unpackLotofacil
        (s.foldl (fun packed n => packed ||| (1 <<< (n - 1))) 0)).Sorted (· ≤ ·) := by
  obtain ⟨hlen, hbnd, hnd⟩ := validateLotofasil_spec s hv
  set packed := s.foldl (fun packed n => packed ||| (1 <<< (n - 1))) 0 with hp
  have hbit : ∀ i, (packed &&& (1 <<< i) != 0) = true ↔ packed.testBit i = true := by
    intro i
    rw [Nat.one_shiftLeft, Nat.and_two_pow]
    cases hb : packed.testBit i
    · simp [hb]
    · simp [hb, (Nat.two_pow_pos i).ne']
  have hmem : ∀ x, x ∈ ((List.range 25).filter
      (fun i => packed &&& (1 <<< i) != 0)).map (fun i => i + 1) ↔ x ∈ s := by
    intro x
    simp only [List.mem_map, List.mem_filter, List.mem_range]
    constructor
    · rintro ⟨i, ⟨hi25, hfi⟩, rfl⟩
      have ht : packed.testBit i = true := (hbit i).mp hfi
      rw [hp, packLotofacil_testBit] at ht
      simp only [List.any_eq_true, beq_iff_eq] at ht
      obtain ⟨n, hn, hni⟩ := ht
      have h1 := (hbnd n hn).1
      have : n = i + 1 := by omega
      rw [← this]
      exact hn
    · intro hx
      obtain ⟨h1, h2⟩ := hbnd x hx
      refine ⟨x - 1, ⟨by omega, ?_⟩, by omega⟩
      apply (hbit (x - 1)).mpr
      rw [hp, packLotofacil_testBit]
      simp only [List.any_eq_true, beq_iff_eq]
      exact ⟨x, hx, rfl⟩
  have hnodup : (((List.range 25).filter
      (fun i => packed &&& (1 <<< i) != 0)).map (fun i => i + 1)).Nodup := by
    apply List.Nodup.map
    · intro a b hab
      simpa using hab
    · exact (List.nodup_range 25).filter _
  have hperm : List.Perm (((List.range 25).filter
      (fun i => packed &&& (1 <<< i) != 0)).map (fun i => i + 1)) s :=
    (List.perm_ext_iff_of_nodup hnodup hnd).mpr hmem
  constructor
  · exact (List.perm_insertionSort _ _).trans hperm
  · exact List.sorted_insertionSort _ _

end NumberPacking

section

open MerkleTree

/-- C6 (confirmed): decoding the encoding of a valid selection yields its
canonical form — for Lotofácil (`FixedChoice`) the selection sorted
ascending (a permutation of the input, sorted), for SuperSete
(`PositionalDigits`) the selection itself with order preserved. -/
theorem c6_decode_encode_canonical :
    (∀ numbers : List Nat, NumberPacking.validateLotofasilNumbers numbers = true →
      ∃ p, NumberPacking.packLotofacil numbers = Except.ok p
        ∧ List.Perm (NumberPacking.unpackLotofacil p) numbers
        ∧ (NumberPacking.unpackLotofacil p).Sorted (· ≤ ·))
    ∧ (∀ columns : List Nat, NumberPacking.validateSuperseteNumbers columns = true →
      ∃ p, NumberPacking.packSupersete columns = Except.ok p
        ∧ NumberPacking.unpackSupersete p = columns) := by
  constructor
  · intro numbers hv
    refine ⟨numbers.foldl (fun packed n => packed ||| (1 <<< (n - 1))) 0, ?_, ?_, ?_⟩
    · unfold NumberPacking.packLotofacil
      rw [if_pos hv]
    · exact (NumberPacking.unpackLotofacil_packed numbers hv).1
    · exact (NumberPacking.unpackLotofacil_packed numbers hv).2
  · intro columns hv
    obtain ⟨hlen, hbnd⟩ := NumberPacking.validateSupersete_spec columns hv
    refine ⟨NumberPacking.packSuperseteGo columns 0, ?_, ?_⟩
    · unfold NumberPacking.packSupersete
      rw [if_pos hv]
    · exact NumberPacking.unpackSupersete_packGo columns hlen
        (fun c hc => by have := hbnd c hc; omega)

/-- C6 (witness): the round-trip theorem applied to a concrete valid
selection of each variant. -/
theorem c6_decode_encode_canonical_witness :
    NumberPacking.validateLotofasilNumbers
        [15, 14, 13, 12, 11, 10, 9, 8, 7, 6, 5, 4, 3, 2, 1] = true
    ∧ NumberPacking.validateSuperseteNumbers [9, 0, 3, 3, 7, 5, 1] = true
    ∧ (∃ p, NumberPacking.packLotofacil
          [15, 14, 13, 12, 11, 10, 9, 8, 7, 6, 5, 4, 3, 2, 1] = Except.ok p
        ∧ List.Perm (NumberPacking.unpackLotofacil p)
            [15, 14, 13, 12, 11, 10, 9, 8, 7, 6, 5, 4, 3, 2, 1]
        ∧ (NumberPacking.unpackLotofacil p).Sorted (· ≤ ·))
    ∧ (∃ p, NumberPacking.packSupersete [9, 0, 3, 3, 7, 5, 1] = Except.ok p
        ∧ NumberPacking.unpackSupersete p = [9, 0, 3, 3, 7, 5, 1]) :=
  ⟨by decide, by decide,
    c6_decode_encode_canonical.1 [15, 14, 13, 12, 11, 10, 9, 8, 7, 6, 5, 4, 3, 2, 1]
      (by decide),
    c6_decode_encode_canonical.2 [9, 0, 3, 3, 7, 5, 1] (by decide)⟩

end

namespace MerkleTree

theorem beBytes_length : ∀ w v, (beBytes w v).length = w := by
  intro w
  induction w with
  | zero => intro v; rfl
  | succ w ih => intro v; simp [beBytes, ih]

theorem beVal_beBytes : ∀ w v, beVal (beBytes w v) = v % 256 ^ w := by
  intro w
  induction w with
  | zero => intro v; simp [beBytes, beVal, Nat.mod_one]
  | succ w ih =>
    intro v
    show beVal (beBytes w (v / 256) ++ [v % 256]) = v % 256 ^ (w + 1)
    unfold beVal
    rw [List.foldl_append]
    simp only [List.foldl_cons, List.foldl_nil]
    have := ih (v / 256)
    unfold beVal at this
    rw [this]
    have hpow : (256 : Nat) ^ (w + 1) = 256 * 256 ^ w := by ring
    rw [hpow, Nat.mod_mul]
    ring

end MerkleTree

section

open MerkleTree

/-- C3 (counterexample): the live leaf hasher packs the address as 20 raw
bytes and the game tag as a single byte (`abi.encodePacked`), so its preimage
has 149 bytes, not the 192 bytes of the claimed all-32-byte layout: at a
concrete ticket and with the identity in place of keccak256 the two differ
(already in length). -/
theorem c3_cx_packed_layout :
    generateLeafHash (fun bs => bs)
        { ticketId := 1, owner := 2, game := 1, numbersPacked := 3,
          roundsBought := 4, firstDrawId := 5 }
      ≠ (fun bs => bs) (specLeafPreimage
        { ticketId := 1, owner := 2, game := 1, numbersPacked := 3,
          roundsBought := 4, firstDrawId := 5 })
    ∧ (encodePackedLeaf
        { ticketId := 1, owner := 2, game := 1, numbersPacked := 3,
          roundsBought := 4, firstDrawId := 5 }).length = 149
    ∧ (specLeafPreimage
        { ticketId := 1, owner := 2, game := 1, numbersPacked := 3,
          roundsBought := 4, firstDrawId := 5 }).length = 192 := by
  have h149 : (encodePackedLeaf
      { ticketId := 1, owner := 2, game := 1, numbersPacked := 3,
        roundsBought := 4, firstDrawId := 5 }).length = 149 := by
    simp [encodePackedLeaf, beBytes_length]
  have h192 : (specLeafPreimage
      { ticketId := 1, owner := 2, game := 1, numbersPacked := 3,
        roundsBought := 4, firstDrawId := 5 }).length = 192 := by
    simp [specLeafPreimage, beBytes_length]
  refine ⟨?_, h149, h192⟩
  intro h
  have := congrArg List.length h
  simp only [generateLeafHash] at this
  rw [h149, h192] at this
  omega

/-- C3 (amended): the leaf hash is keccak256 of the `abi.encodePacked`
concatenation in the fixed order (ticketId, owner, game, packedSelection,
roundsBought, firstDrawId), where ticketId, packedSelection, roundsBought and
firstDrawId each occupy a 32-byte big-endian word, the 20-byte address
occupies exactly its 20 raw bytes (no padding to 32), and the game tag a
single byte — 149 preimage bytes in total (the placeholder-hash variant pads
the game tag to 32 bytes instead, 180 bytes, and is not keccak at all). -/
theorem c3_leaf_hash_layout (keccak : List Nat → List Nat) (t : TicketLeafData) :
    generateLeafHash keccak t = keccak (encodePackedLeaf t)
    ∧ (encodePackedLeaf t).length = 149
    ∧ (encodePackedLeaf t).take 32 = beBytes 32 t.ticketId
    ∧ ((encodePackedLeaf t).drop 32).take 20 = beBytes 20 t.owner
    ∧ ((encodePackedLeaf t).drop 52).take 1 = [t.game % 256]
    ∧ ((encodePackedLeaf t).drop 53).take 32 = beBytes 32 t.numbersPacked
    ∧ ((encodePackedLeaf t).drop 85).take 32 = beBytes 32 t.roundsBought
    ∧ ((encodePackedLeaf t).drop 117) = beBytes 32 t.firstDrawId
    ∧ (∀ w v, beVal (beBytes w v) = v % 256 ^ w)
    ∧ (specLeafPreimage t).length = 192
    ∧ (placeholderLeafPreimage t).length = 180 := by
  have hsplit : encodePackedLeaf t
      = beBytes 32 t.ticketId ++ (beBytes 20 t.owner ++ (beBytes 1 t.game
        ++ (beBytes 32 t.numbersPacked ++ (beBytes 32 t.roundsBought
        ++ beBytes 32 t.firstDrawId)))) := by
    simp [encodePackedLeaf]
  have hlen : ∀ w v, (beBytes w v).length = w := beBytes_length
  refine ⟨rfl, ?_, ?_, ?_, ?_, ?_, ?_, ?_, beVal_beBytes, ?_, ?_⟩
  · simp [encodePackedLeaf, hlen]
  · rw [hsplit]
    exact List.take_left' (hlen 32 _)
  · rw [hsplit, List.drop_left' (hlen 32 _)]
    exact List.take_left' (hlen 20 _)
  · rw [hsplit,
      show (52 : Nat) = 32 + 20 from rfl, List.drop_add, List.drop_left' (hlen 32 _),
      List.drop_left' (hlen 20 _)]
    have : beBytes 1 t.game = [t.game % 256] := rfl
    rw [List.take_left' (by rw [this]; rfl)]
    exact this
  · rw [hsplit,
      show (53 : Nat) = 32 + 20 + 1 from rfl, List.drop_add, List.drop_add,
      List.drop_left' (hlen 32 _), List.drop_left' (hlen 20 _),
      List.drop_left' (show (beBytes 1 t.game).length = 1 from hlen 1 _)]
    exact List.take_left' (hlen 32 _)
  · rw [hsplit,
      show (85 : Nat) = 32 + 20 + 1 + 32 from rfl, List.drop_add, List.drop_add,
      List.drop_add, List.drop_left' (hlen 32 _), List.drop_left' (hlen 20 _),
      List.drop_left' (show (beBytes 1 t.game).length = 1 from hlen 1 _),
      List.drop_left' (hlen 32 _)]
    exact List.take_left' (hlen 32 _)
  · rw [hsplit,
      show (117 : Nat) = 32 + 20 + 1 + 32 + 32 from rfl, List.drop_add, List.drop_add,
      List.drop_add, List.drop_add, List.drop_left' (hlen 32 _),
      List.drop_left' (hlen 20 _),
      List.drop_left' (show (beBytes 1 t.game).length = 1 from hlen 1 _),
      List.drop_left' (hlen 32 _), List.drop_left' (hlen 32 _)]
  · simp [specLeafPreimage, hlen]
  · simp [placeholderLeafPreimage, hlen]

end

namespace ConsolidatorService

theorem consecFromIdx_append (t' w' : List Nat) (a b : Nat) :
    ∀ i, i < t'.length → i < w'.length →
      consecFromIdx (t' ++ [a]) (w' ++ [b]) i = consecFromIdx t' w' i := by
  intro i
  induction i with
  | zero =>
    intro ht hw
    show (if (t' ++ [a])[0]? == (w' ++ [b])[0]? then 1 else 0)
      = (if t'[0]? == w'[0]? then 1 else 0)
    rw [List.getElem?_append, List.getElem?_append, if_pos ht, if_pos hw]
  | succ i ih =>
    intro ht hw
    show (if (t' ++ [a])[i + 1]? == (w' ++ [b])[i + 1]? then
        consecFromIdx (t' ++ [a]) (w' ++ [b]) i + 1 else 0)
      = (if t'[i + 1]? == w'[i + 1]? then consecFromIdx t' w' i + 1 else 0)
    rw [List.getElem?_append, List.getElem?_append, if_pos ht, if_pos hw,
      ih (by omega) (by omega)]

theorem consecFromIdx_concat (t' w' : List Nat) (a b : Nat)
    (hlen : t'.length = w'.length) :
    consecFromIdx (t' ++ [a]) (w' ++ [b]) t'.length
      = if a == b then
          (if t'.length = 0 then 1 else consecFromIdx t' w' (t'.length - 1) + 1)
        else 0 := by
  cases ht' : t'.length with
  | zero =>
    have h1 : t' = [] := List.length_eq_zero.mp ht'
    have h2 : w' = [] := List.length_eq_zero.mp (by omega)
    subst h1
    subst h2
    show (if (some a == some b) then 1 else 0) = _
    cases h : a == b
    · have : (some a == some b) = false := by simpa using h
      simp [this, h]
    · have : (some a == some b) = true := by simpa using h
      simp [this, h]
  | succ m =>
    have hta : (t' ++ [a])[m + 1]? = some a := by
      rw [← ht']
      exact List.getElem?_concat_length t' a
    have hwb : (w' ++ [b])[m + 1]? = some b := by
      have hwl : w'.length = m + 1 := by omega
      rw [← hwl]
      exact List.getElem?_concat_length w' b
    show (if (t' ++ [a])[m + 1]? == (w' ++ [b])[m + 1]? then
        consecFromIdx (t' ++ [a]) (w' ++ [b]) m + 1 else 0) = _
    rw [hta, hwb,
      consecFromIdx_append t' w' a b m (by omega) (by omega)]
    have hsome : (some a == some b) = (a == b) := rfl
    rw [hsome]
    simp

theorem consec_eq_suffixMatchCount :
    ∀ t w : List Nat, t.length = w.length →
      (if t.length = 0 then 0 else consecFromIdx t w (t.length - 1))
        = suffixMatchCount t w := by
  intro t
  induction t using List.reverseRecOn with
  | nil =>
    intro w hw
    simp [suffixMatchCount]
  | append_singleton t' a ih =>
    intro w hw
    rcases List.eq_nil_or_concat w with rfl | ⟨w', b, rfl⟩
    · simp at hw
    · rw [List.concat_eq_append] at hw ⊢
      have hlen : t'.length = w'.length := by
        simp at hw
        omega
      have hsuffix : suffixMatchCount (t' ++ [a]) (w' ++ [b])
          = if a == b then suffixMatchCount t' w' + 1 else 0 := by
        unfold suffixMatchCount
        rw [List.reverse_concat, List.reverse_concat, List.zip_cons_cons,
          List.takeWhile_cons]
        cases h : a == b
        · simp [h]
        · simp only [h, if_true]
          simp [Nat.add_comm]
      have hlt : (t' ++ [a]).length = t'.length + 1 := by simp
      rw [hlt]
      simp only [Nat.succ_ne_zero, if_false, Nat.add_sub_cancel]
      rw [consecFromIdx_concat t' w' a b hlen, hsuffix, ← ih w' hlen]
      cases h : a == b
      · simp
      · simp only [if_true]
        by_cases h0 : t'.length = 0
        · have h0' : w'.length = 0 := by omega
          have ht0 : t' = [] := List.length_eq_zero.mp h0
          subst ht0
          simp [h0]
        · simp [h0]

theorem countP_range_eq_zip (t : List Nat) : ∀ w : List Nat,
    (List.range (min t.length w.length)).countP (fun i => t.getD i 0 == w.getD i 0)
      = (t.zip w).countP (fun p => p.1 == p.2) := by
  induction t with
  | nil => intro w; simp
  | cons x t' ih =>
    intro w
    cases w with
    | nil => simp
    | cons y w' =>
      have hmin : min (x :: t').length (y :: w').length = min t'.length w'.length + 1 := by
        simp only [List.length_cons]
        omega
      rw [hmin, List.range_succ_eq_map, List.zip_cons_cons, List.countP_cons,
        List.countP_cons, List.countP_map]
      have hfun : ((fun i => (x :: t').getD i 0 == (y :: w').getD i 0) ∘ Nat.succ)
          = (fun i => t'.getD i 0 == w'.getD i 0) := by
        funext i
        simp [List.getD_cons_succ]
      rw [hfun, ih w']
      simp

end ConsolidatorService

section

open MerkleTree

/-- C4 (counterexample): at ticket `[5,5,5,5,5,5,0]` against winning
`[5,5,5,5,5,5,1]` the rightmost position mismatches, so a right-to-left
consecutive scan stops at once (count 0, no tier) — but
`RandomnessDerivation.checkSuperseteWinning` counts the six matching earlier
positions and awards tier 2, while `ConsolidatorService.checkTicketWinning`
returns no tier: the two cited implementations disagree, and the claim is
false of the former. -/
theorem c4_cx_positions_left_of_mismatch :
    RandomnessDerivation.checkSuperseteWinning [5, 5, 5, 5, 5, 5, 0] [5, 5, 5, 5, 5, 5, 1]
      = { isWinner := true, matchCount := 6, tier := some 2 }
    ∧ suffixMatchCount [5, 5, 5, 5, 5, 5, 0] [5, 5, 5, 5, 5, 5, 1] = 0
    ∧ ConsolidatorService.checkTicketWinning [5, 5, 5, 5, 5, 5, 0] [5, 5, 5, 5, 5, 5, 1] 1
      = { isWinner := false, matchCount := 0, tier := none } := by decide

/-- C4 (amended): for 7-digit SuperSete selections,
`ConsolidatorService.checkTicketWinning` scans from the rightmost position
leftward, counts consecutive equal digits, stops at the first mismatch and
maps counts 7,6,5,4,3 to tiers 1..5 (`superseteTier`); but
`RandomnessDerivation.checkSuperseteWinning` instead counts equal digits at
ALL positions and applies the same tier ladder to that count, so positions
left of a mismatch do contribute there. -/
theorem c4_supersete_tier_scan (t w : List Nat) (ht : t.length = 7) (hw : w.length = 7) :
    (ConsolidatorService.checkTicketWinning t w 1).matchCount = suffixMatchCount t w
    ∧ (ConsolidatorService.checkTicketWinning t w 1).tier
        = RandomnessDerivation.superseteTier (suffixMatchCount t w)
    ∧ (RandomnessDerivation.checkSuperseteWinning t w).matchCount
        = (t.zip w).countP (fun p => p.1 == p.2)
    ∧ (RandomnessDerivation.checkSuperseteWinning t w).tier
        = RandomnessDerivation.superseteTier ((t.zip w).countP (fun p => p.1 == p.2)) := by
  have hlen : t.length = w.length := by omega
  have hcons := ConsolidatorService.consec_eq_suffixMatchCount t w hlen
  have hcount := ConsolidatorService.countP_range_eq_zip t w
  refine ⟨?_, ?_, ?_, ?_⟩
  · show (if t.length = 0 then 0 else ConsolidatorService.consecFromIdx t w (t.length - 1))
      = suffixMatchCount t w
    exact hcons
  · show RandomnessDerivation.superseteTier
        (if t.length = 0 then 0 else ConsolidatorService.consecFromIdx t w (t.length - 1))
      = RandomnessDerivation.superseteTier (suffixMatchCount t w)
    rw [hcons]
  · exact hcount
  · show RandomnessDerivation.superseteTier
        ((List.range (min t.length w.length)).countP (fun i => t.getD i 0 == w.getD i 0))
      = _
    rw [hcount]

/-- C4 (witness): the amended theorem applied at concrete 7-digit
selections with one mismatch in the middle. -/
theorem c4_supersete_tier_scan_witness :
    (([1, 2, 3, 4, 5, 6, 7] : List Nat).length = 7)
    ∧ (([1, 2, 3, 9, 5, 6, 7] : List Nat).length = 7)
    ∧ ((ConsolidatorService.checkTicketWinning [1, 2, 3, 4, 5, 6, 7] [1, 2, 3, 9, 5, 6, 7]
          1).matchCount
        = suffixMatchCount [1, 2, 3, 4, 5, 6, 7] [1, 2, 3, 9, 5, 6, 7]
      ∧ (ConsolidatorService.checkTicketWinning [1, 2, 3, 4, 5, 6, 7] [1, 2, 3, 9, 5, 6, 7]
          1).tier
        = RandomnessDerivation.superseteTier
            (suffixMatchCount [1, 2, 3, 4, 5, 6, 7] [1, 2, 3, 9, 5, 6, 7])
      ∧ (RandomnessDerivation.checkSuperseteWinning [1, 2, 3, 4, 5, 6, 7]
          [1, 2, 3, 9, 5, 6, 7]).matchCount
        = (([1, 2, 3, 4, 5, 6, 7] : List Nat).zip [1, 2, 3, 9, 5, 6, 7]).countP
            (fun p => p.1 == p.2)
      ∧ (RandomnessDerivation.checkSuperseteWinning [1, 2, 3, 4, 5, 6, 7]
          [1, 2, 3, 9, 5, 6, 7]).tier
        = RandomnessDerivation.superseteTier
            ((([1, 2, 3, 4, 5, 6, 7] : List Nat).zip [1, 2, 3, 9, 5, 6, 7]).countP
              (fun p => p.1 == p.2))) :=
  ⟨by decide, by decide,
    c4_supersete_tier_scan [1, 2, 3, 4, 5, 6, 7] [1, 2, 3, 9, 5, 6, 7]
      (by decide) (by decide)⟩

end

namespace RandomnessDerivation

theorem getD_cons_eraseIdx_perm (l : List Nat) (idx : Nat) (h : idx < l.length) :
    List.Perm (l.getD idx 0 :: l.eraseIdx idx) l := by
  rw [List.getD_eq_getElem l 0 h, List.eraseIdx_eq_take_drop_succ]
  have h1 : l.take idx ++ l[idx] :: l.drop (idx + 1) = l := by
    conv_lhs => rw [List.getElem_cons_drop l idx h]
    exact List.take_append_drop idx l
  have h2 := (@List.perm_middle Nat l[idx] (l.take idx) (l.drop (idx + 1))).symm
  rw [h1] at h2
  exact h2

theorem drawLoop_perm : ∀ (bs numbers available : List Nat),
    List.Perm ((drawLoop bs numbers available).1 ++ (drawLoop bs numbers available).2)
      (numbers ++ available) := by
  intro bs
  induction bs with
  | nil => intro numbers available; simp [drawLoop]
  | cons b bs ih =>
    intro numbers available
    by_cases h15 : numbers.length < 15
    · by_cases h0 : available.length = 0
      · simp [drawLoop, h15, h0]
      · simp only [drawLoop, if_pos h15, if_neg h0]
        have hlt : b % available.length < available.length := Nat.mod_lt _ (by omega)
        refine (ih _ _).trans ?_
        rw [List.append_assoc]
        refine List.Perm.append_left numbers ?_
        exact getD_cons_eraseIdx_perm available _ hlt
    · simp [drawLoop, h15]

theorem drawLoop_numbers_le : ∀ (bs numbers available : List Nat),
    numbers.length ≤ 15 → (drawLoop bs numbers available).1.length ≤ 15 := by
  intro bs
  induction bs with
  | nil => intro numbers available h; exact h
  | cons b bs ih =>
    intro numbers available h
    by_cases h15 : numbers.length < 15
    · by_cases h0 : available.length = 0
      · simp only [drawLoop, if_pos h15, if_pos h0]; exact h
      · simp only [drawLoop, if_pos h15, if_neg h0]
        refine ih _ _ ?_
        simp only [List.length_append, List.length_cons, List.length_nil]
        omega
    · simp only [drawLoop, if_neg h15]; exact h

theorem fillLoopGo_perm : ∀ (fuel : Nat) (numbers available : List Nat),
    ∃ rest, List.Perm ((fillLoopGo fuel numbers available) ++ rest)
      (numbers ++ available) := by
  intro fuel
  induction fuel with
  | zero => intro numbers available; exact ⟨available, List.Perm.refl _⟩
  | succ fuel ih =>
    intro numbers available
    by_cases h : numbers.length < 15 ∧ 0 < available.length
    · simp only [fillLoopGo, if_pos h]
      obtain ⟨rest, hrest⟩ := ih
        (numbers ++ [available.getD ((numbers.length * 7) % available.length) 0])
        (available.eraseIdx ((numbers.length * 7) % available.length))
      refine ⟨rest, hrest.trans ?_⟩
      rw [List.append_assoc]
      refine List.Perm.append_left numbers ?_
      exact getD_cons_eraseIdx_perm available _ (Nat.mod_lt _ h.2)
    · simp only [fillLoopGo, if_neg h]
      exact ⟨available, List.Perm.refl _⟩

theorem fillLoopGo_length : ∀ (fuel : Nat) (numbers available : List Nat),
    available.length ≤ fuel → numbers.length ≤ 15 →
      (fillLoopGo fuel numbers available).length
        = min 15 (numbers.length + available.length) := by
  intro fuel
  induction fuel with
  | zero =>
    intro numbers available hf h15
    have h0 : available.length = 0 := by omega
    show numbers.length = _
    omega
  | succ fuel ih =>
    intro numbers available hf h15
    by_cases h : numbers.length < 15 ∧ 0 < available.length
    · simp only [fillLoopGo, if_pos h]
      have hlt : (numbers.length * 7) % available.length < available.length :=
        Nat.mod_lt _ h.2
      rw [ih _ _ ?_ ?_]
      · rw [List.length_append, List.length_eraseIdx, if_pos hlt]
        simp only [List.length_cons, List.length_nil]
        omega
      · rw [List.length_eraseIdx, if_pos hlt]
        omega
      · simp only [List.length_append, List.length_cons, List.length_nil]
        omega
    · simp only [fillLoopGo, if_neg h]
      omega

theorem pool25_nodup : pool25.Nodup := by decide

theorem pool25_mem_bounds : ∀ x ∈ pool25, 1 ≤ x ∧ x ≤ 25 := by decide

theorem pool25_length : pool25.length = 25 := by decide

end RandomnessDerivation

section

open MerkleTree

/-- C7 (counterexample): with empty randomness, the SuperSete derivation
indexes `bytes[i % 0]`, which in JS is `bytes[NaN] = undefined`, and
`undefined % 10` is `NaN`: all seven "digits" are NaN (modelled `none`),
violating the invariant that each digit is an integer in `[0, 9]`. -/
theorem c7_cx_empty_randomness :
    RandomnessDerivation.deriveSuperseteWinning []
      = [none, none, none, none, none, none, none]
    ∧ ¬ (∀ d ∈ RandomnessDerivation.deriveSuperseteWinning [],
          ∃ v, d = some v ∧ v ≤ 9) := by
  constructor
  · decide
  · intro h
    obtain ⟨v, hv, _⟩ := h none (by decide)
    exact Option.noConfusion hv

/-- C7 (amended): for every byte sequence the derived Lotofácil selection is
15 distinct numbers in `[1, 25]` in ascending order (the fallback loop
completes the pick even for empty or short randomness); the derived SuperSete
selection is 7 digits in `[0, 9]` for every NON-empty byte sequence, while
the empty sequence produces NaN digits. -/
theorem c7_derived_selection_invariants :
    (∀ bytes : List Nat,
      (RandomnessDerivation.deriveLotofacilWinning bytes).length = 15
      ∧ (RandomnessDerivation.deriveLotofacilWinning bytes).Nodup
      ∧ (∀ x ∈ RandomnessDerivation.deriveLotofacilWinning bytes, 1 ≤ x ∧ x ≤ 25)
      ∧ (RandomnessDerivation.deriveLotofacilWinning bytes).Sorted (· ≤ ·))
    ∧ (∀ bytes : List Nat, bytes ≠ [] →
      (RandomnessDerivation.deriveSuperseteWinning bytes).length = 7
      ∧ ∀ d ∈ RandomnessDerivation.deriveSuperseteWinning bytes,
          ∃ v, d = some v ∧ v ≤ 9) := by
  constructor
  · intro bytes
    obtain ⟨rest, hrest⟩ := RandomnessDerivation.fillLoopGo_perm
      (RandomnessDerivation.drawLoop bytes [] RandomnessDerivation.pool25).2.length
      (RandomnessDerivation.drawLoop bytes [] RandomnessDerivation.pool25).1
      (RandomnessDerivation.drawLoop bytes [] RandomnessDerivation.pool25).2
    have hdperm := RandomnessDerivation.drawLoop_perm bytes [] RandomnessDerivation.pool25
    simp only [List.nil_append] at hdperm
    have hcomb := hrest.trans hdperm
    have hdlen : (RandomnessDerivation.drawLoop bytes [] RandomnessDerivation.pool25).1.length
        + (RandomnessDerivation.drawLoop bytes [] RandomnessDerivation.pool25).2.length
        = 25 := by
      have := hdperm.length_eq
      simp only [List.length_append, RandomnessDerivation.pool25_length] at this
      exact this
    have hdle : (RandomnessDerivation.drawLoop bytes [] RandomnessDerivation.pool25).1.length
        ≤ 15 :=
      RandomnessDerivation.drawLoop_numbers_le bytes [] RandomnessDerivation.pool25
        (by simp)
    have hflen : (RandomnessDerivation.fillLoop
        (RandomnessDerivation.drawLoop bytes [] RandomnessDerivation.pool25).1
        (RandomnessDerivation.drawLoop bytes [] RandomnessDerivation.pool25).2).length
        = 15 := by
      unfold RandomnessDerivation.fillLoop
      rw [RandomnessDerivation.fillLoopGo_length _ _ _ le_rfl hdle]
      omega
    have hfnodup : (RandomnessDerivation.fillLoop
        (RandomnessDerivation.drawLoop bytes [] RandomnessDerivation.pool25).1
        (RandomnessDerivation.drawLoop bytes [] RandomnessDerivation.pool25).2).Nodup := by
      have hall : ((RandomnessDerivation.fillLoop
          (RandomnessDerivation.drawLoop bytes [] RandomnessDerivation.pool25).1
          (RandomnessDerivation.drawLoop bytes [] RandomnessDerivation.pool25).2)
            ++ rest).Nodup :=
        hcomb.symm.nodup RandomnessDerivation.pool25_nodup
      exact (List.sublist_append_left _ _).nodup hall
    have hfmem : ∀ x ∈ RandomnessDerivation.fillLoop
        (RandomnessDerivation.drawLoop bytes [] RandomnessDerivation.pool25).1
        (RandomnessDerivation.drawLoop bytes [] RandomnessDerivation.pool25).2,
        1 ≤ x ∧ x ≤ 25 := by
      intro x hx
      refine RandomnessDerivation.pool25_mem_bounds x ?_
      exact hcomb.subset (List.mem_append_left rest hx)
    have hsortperm := List.perm_insertionSort (· ≤ ·)
      (RandomnessDerivation.fillLoop
        (RandomnessDerivation.drawLoop bytes [] RandomnessDerivation.pool25).1
        (RandomnessDerivation.drawLoop bytes [] RandomnessDerivation.pool25).2)
    refine ⟨?_, ?_, ?_, ?_⟩
    · show (List.insertionSort (· ≤ ·) _).length = 15
      rw [hsortperm.length_eq]
      exact hflen
    · exact hsortperm.symm.nodup hfnodup
    · intro x hx
      exact hfmem x (hsortperm.subset hx)
    · exact List.sorted_insertionSort (· ≤ ·) _
  · intro bytes hb
    constructor
    · simp [RandomnessDerivation.deriveSuperseteWinning]
    · intro d hd
      simp only [RandomnessDerivation.deriveSuperseteWinning, List.mem_map,
        List.mem_range] at hd
      obtain ⟨i, _, hdi⟩ := hd
      have hne : bytes.isEmpty = false := by
        cases bytes
        · exact absurd rfl hb
        · rfl
      rw [hne] at hdi
      simp only [Bool.false_eq_true, if_false] at hdi
      refine ⟨(bytes.getD (i % bytes.length) 0) % 10, hdi.symm, ?_⟩
      have : (bytes.getD (i % bytes.length) 0) % 10 < 10 := Nat.mod_lt _ (by omega)
      omega

/-- C7 (witness): the amended theorem applied at the empty byte list for
Lotofácil (the fallback completes the draw) and a one-byte list for
SuperSete. -/
theorem c7_derived_selection_invariants_witness :
    (((RandomnessDerivation.deriveLotofacilWinning []).length = 15
      ∧ (RandomnessDerivation.deriveLotofacilWinning []).Nodup
      ∧ (∀ x ∈ RandomnessDerivation.deriveLotofacilWinning [], 1 ≤ x ∧ x ≤ 25)
      ∧ (RandomnessDerivation.deriveLotofacilWinning []).Sorted (· ≤ ·)))
    ∧ (([18] : List Nat) ≠ [])
    ∧ ((RandomnessDerivation.deriveSuperseteWinning [18]).length = 7
      ∧ ∀ d ∈ RandomnessDerivation.deriveSuperseteWinning [18],
          ∃ v, d = some v ∧ v ≤ 9) :=
  ⟨c7_derived_selection_invariants.1 [], by decide,
    c7_derived_selection_invariants.2 [18] (by decide)⟩

/-- C9 (counterexample): `RandomnessDerivation.checkWinning` with the
unrecognized tag 2 silently returns the non-winning default result instead of
signalling `UnsupportedGameVariant`. -/
theorem c9_cx_checkWinning_default :
    RandomnessDerivation.checkWinning [1] [1] 2
      = { isWinner := false, matchCount := 0, tier := none } := by decide

/-- C9 (amended): `packNumbers`, `unpackNumbers` and `deriveWinningNumbers`
throw `Unsupported game type` on every unrecognized tag, but the two
tier-evaluation entry points (`RandomnessDerivation.checkWinning` and
`ConsolidatorService.checkTicketWinning`) silently return the non-winning
default instead. -/
theorem c9_unsupported_game_tag (g : Nat) (h0 : g ≠ 0) (h1 : g ≠ 1)
    (numbers t w bytes : List Nat) (packed : Nat) :
    NumberPacking.packNumbers numbers g = Except.error "Unsupported game type"
    ∧ NumberPacking.unpackNumbers packed g = Except.error "Unsupported game type"
    ∧ RandomnessDerivation.deriveWinningNumbers bytes g
        = Except.error "Unsupported game type"
    ∧ RandomnessDerivation.checkWinning t w g
        = { isWinner := false, matchCount := 0, tier := none }
    ∧ ConsolidatorService.checkTicketWinning t w g
        = { isWinner := false, matchCount := 0, tier := none } := by
  cases g with
  | zero => exact absurd rfl h0
  | succ g' =>
    cases g' with
    | zero => exact absurd rfl h1
    | succ g'' => exact ⟨rfl, rfl, rfl, rfl, rfl⟩

/-- C9 (witness): the amended theorem applied at the concrete tag 7. -/
theorem c9_unsupported_game_tag_witness :
    (7 : Nat) ≠ 0 ∧ (7 : Nat) ≠ 1
    ∧ (NumberPacking.packNumbers [1] 7 = Except.error "Unsupported game type"
      ∧ NumberPacking.unpackNumbers 3 7 = Except.error "Unsupported game type"
      ∧ RandomnessDerivation.deriveWinningNumbers [4] 7
          = Except.error "Unsupported game type"
      ∧ RandomnessDerivation.checkWinning [1] [2] 7
          = { isWinner := false, matchCount := 0, tier := none }
      ∧ ConsolidatorService.checkTicketWinning [1] [2] 7
          = { isWinner := false, matchCount := 0, tier := none }) :=
  ⟨by decide, by decide,
    c9_unsupported_game_tag 7 (by decide) (by decide) [1] [1] [2] [4] 3⟩

theorem abs_round2_sub (x : ℚ) : |ConsolidatorService.round2 x - x| ≤ 1 / 200 := by
  unfold ConsolidatorService.round2
  have h := abs_sub_round (100 * x)
  have heq : ((round (100 * x) : ℤ) : ℚ) / 100 - x
      = -((100 * x - ((round (100 * x) : ℤ) : ℚ)) / 100) := by ring
  rw [heq, abs_neg, abs_div]
  rw [show |(100 : ℚ)| = 100 from by norm_num]
  linarith

/-- C8 (counterexample): a 10000.00 pool with three winners in the 2% tier
allocates totalPrize 200.00 but prizePerWinner 66.67, and
66.67 × 3 = 200.01 ≠ 200.00: the per-tier identity
`prizePerWinner * winnerCount == totalPrize` fails under the code's
rounding, which rounds the division per winner and withholds no remainder. -/
theorem c8_cx_per_winner_rounding :
    ConsolidatorService.calculatePrizeDistribution 0 10000 [(5, 3)]
      = [{ tier := 5, count := 3, prizePerWinner := 6667 / 100, totalPrize := 200 }]
    ∧ (6667 / 100 : ℚ) * 3 ≠ 200 := by
  constructor
  · unfold ConsolidatorService.calculatePrizeDistribution
    simp only [List.map_cons, List.map_nil]
    norm_num [ConsolidatorService.round2, ConsolidatorService.lotofacilPercents, round_eq]
  · norm_num

/-- C8 (amended): every tier entry of `calculatePrizeDistribution` stores
`totalPrize = round2(pool * pct)` — within half a cent of the exact tier
allocation — and `prizePerWinner = round2(totalTierPrize / count)`, so the
payout `prizePerWinner * winnerCount` can differ from `totalPrize` by up to
`(winnerCount + 1)` half-cents; no remainder is withheld in the pool and
exact equality does not hold in general. -/
theorem c8_prize_distribution_rounding (game : Nat) (pool : ℚ)
    (winners : List (Nat × Nat)) (e : ConsolidatorService.TierPrize)
    (he : e ∈ ConsolidatorService.calculatePrizeDistribution game pool winners) :
    e.totalPrize = ConsolidatorService.round2 (pool * (if game = 0
        then ConsolidatorService.lotofacilPercents e.tier
        else ConsolidatorService.supersetePercents e.tier))
    ∧ |e.totalPrize - pool * (if game = 0
        then ConsolidatorService.lotofacilPercents e.tier
        else ConsolidatorService.supersetePercents e.tier)| ≤ 1 / 200
    ∧ (1 ≤ e.count →
        |e.prizePerWinner * (e.count : ℚ) - e.totalPrize| ≤ ((e.count : ℚ) + 1) / 200) := by
  simp only [ConsolidatorService.calculatePrizeDistribution, List.mem_map] at he
  obtain ⟨p, hp, he'⟩ := he
  subst he'
  refine ⟨rfl, abs_round2_sub _, ?_⟩
  intro hc
  have hcp : 1 ≤ p.2 := hc
  have hcpos : 0 < p.2 := by omega
  show |ConsolidatorService.round2 (if 0 < p.2 then
      (pool * (if game = 0 then ConsolidatorService.lotofacilPercents p.1
        else ConsolidatorService.supersetePercents p.1)) / (p.2 : ℚ) else 0) * (p.2 : ℚ)
    - ConsolidatorService.round2 (pool * (if game = 0
        then ConsolidatorService.lotofacilPercents p.1
        else ConsolidatorService.supersetePercents p.1))| ≤ ((p.2 : ℚ) + 1) / 200
  rw [if_pos hcpos]
  have hc1 : (1 : ℚ) ≤ (p.2 : ℚ) := by exact_mod_cast hcp
  have hcne : (p.2 : ℚ) ≠ 0 := by linarith
  have h1 := abs_round2_sub ((pool * (if game = 0
    then ConsolidatorService.lotofacilPercents p.1
    else ConsolidatorService.supersetePercents p.1)) / (p.2 : ℚ))
  have h2 := abs_round2_sub (pool * (if game = 0
    then ConsolidatorService.lotofacilPercents p.1
    else ConsolidatorService.supersetePercents p.1))
  have hkey : ConsolidatorService.round2 ((pool * (if game = 0
        then ConsolidatorService.lotofacilPercents p.1
        else ConsolidatorService.supersetePercents p.1)) / (p.2 : ℚ)) * (p.2 : ℚ)
      - ConsolidatorService.round2 (pool * (if game = 0
        then ConsolidatorService.lotofacilPercents p.1
        else ConsolidatorService.supersetePercents p.1))
      = (ConsolidatorService.round2 ((pool * (if game = 0
          then ConsolidatorService.lotofacilPercents p.1
          else ConsolidatorService.supersetePercents p.1)) / (p.2 : ℚ))
        - (pool * (if game = 0
          then ConsolidatorService.lotofacilPercents p.1
          else ConsolidatorService.supersetePercents p.1)) / (p.2 : ℚ)) * (p.2 : ℚ)
        + ((pool * (if game = 0
          then ConsolidatorService.lotofacilPercents p.1
          else ConsolidatorService.supersetePercents p.1))
          - ConsolidatorService.round2 (pool * (if game = 0
            then ConsolidatorService.lotofacilPercents p.1
            else ConsolidatorService.supersetePercents p.1))) := by
    field_simp
  rw [hkey]
  calc |_ * (p.2 : ℚ) + _|
      ≤ |_ * (p.2 : ℚ)| + |_| := abs_add _ _
    _ ≤ (1 / 200) * (p.2 : ℚ) + 1 / 200 := by
        have ha : |(ConsolidatorService.round2 ((pool * (if game = 0
            then ConsolidatorService.lotofacilPercents p.1
            else ConsolidatorService.supersetePercents p.1)) / (p.2 : ℚ))
          - (pool * (if game = 0
            then ConsolidatorService.lotofacilPercents p.1
            else ConsolidatorService.supersetePercents p.1)) / (p.2 : ℚ)) * (p.2 : ℚ)|
            ≤ (1 / 200) * (p.2 : ℚ) := by
          rw [abs_mul, abs_of_nonneg (by positivity : (0:ℚ) ≤ (p.2 : ℚ))]
          exact mul_le_mul_of_nonneg_right h1 (by positivity)
        have hb : |(pool * (if game = 0
            then ConsolidatorService.lotofacilPercents p.1
            else ConsolidatorService.supersetePercents p.1))
          - ConsolidatorService.round2 (pool * (if game = 0
            then ConsolidatorService.lotofacilPercents p.1
            else ConsolidatorService.supersetePercents p.1))| ≤ 1 / 200 := by
          rw [abs_sub_comm]
          exact h2
        exact add_le_add ha hb
    _ = ((p.2 : ℚ) + 1) / 200 := by ring

theorem c8_witness_membership :
    { tier := 1, count := 2, prizePerWinner := 25, totalPrize := 50 }
      ∈ ConsolidatorService.calculatePrizeDistribution 0 100 [(1, 2)] := by
  unfold ConsolidatorService.calculatePrizeDistribution
  simp only [List.map_cons, List.map_nil, List.mem_singleton]
  norm_num [ConsolidatorService.round2, ConsolidatorService.lotofacilPercents, round_eq]

/-- C8 (witness): the amended theorem applied to a 100.00 pool with two
winners in tier 1 of the Lotofácil table. -/
theorem c8_prize_distribution_rounding_witness :
    ({ tier := 1, count := 2, prizePerWinner := 25, totalPrize := 50 }
        ∈ ConsolidatorService.calculatePrizeDistribution 0 100 [(1, 2)])
    ∧ ((50 : ℚ) = ConsolidatorService.round2 (100 * (if (0 : Nat) = 0
          then ConsolidatorService.lotofacilPercents 1
          else ConsolidatorService.supersetePercents 1))
      ∧ |(50 : ℚ) - 100 * (if (0 : Nat) = 0
          then ConsolidatorService.lotofacilPercents 1
          else ConsolidatorService.supersetePercents 1)| ≤ 1 / 200
      ∧ (1 ≤ (2 : Nat) →
          |(25 : ℚ) * ((2 : Nat) : ℚ) - 50| ≤ (((2 : Nat) : ℚ) + 1) / 200)) :=
  ⟨c8_witness_membership,
    c8_prize_distribution_rounding 0 100 [(1, 2)]
      { tier := 1, count := 2, prizePerWinner := 25, totalPrize := 50 }
      c8_witness_membership⟩

end
